import Mathlib

/-!
# HPC_lab2: the recursive radix-2 FFT of `Binaries/fft.c`

A shallow embedding of `fft.c` and theorems about it, followed by the loops of the two
other benchmarks, `mm.c` and `branchy_test.c`.

* A C buffer `complex_t *a` is a `List (complex_t R)`; every read and write is
  bounds-checked, so the embedded functions return `Option`: `none` stands for
  an access outside the buffer, `some a` for the buffer after a normal return.
* The C `double` is an arbitrary field `R`; `cos`, `sin` (from `math.h`) and the
  constant `PI` (the macro `3.14159265358979323846`, the digits of π) are
  parameters of the embedding.  Theorems about values take `R = ℝ` with
  `Real.cos`, `Real.sin` and `Real.pi`: exact arithmetic, no rounding.
* The C `int n` is an `Int`; the indices the code computes (`i*2 + 1`,
  `k + n/2`) stay below `n`, so machine overflow does not arise.
* `malloc` is assumed to succeed, as the source assumes.
* In `mm.c` every `double` that occurs is an integer below `2^53` in magnitude, so
  the cells are `Int`; in `branchy_test.c` the `int` counter is reduced to 32 bits
  after every update and the stream of `rand()` results is a parameter.
-/

namespace HPCLab2

/-- The struct `complex_t` of `fft.c`: `typedef struct { double re, im; } complex_t;`. -/
structure complex_t (R : Type) where
  re : R
  im : R
deriving DecidableEq

variable {R : Type}

/-- The assignment `a[i] = v` on a buffer, `none` when `i` is outside the buffer. -/
def store (a : List (complex_t R)) (i : Nat) (v : complex_t R) : Option (List (complex_t R)) :=
  if i < a.length then some (a.set i v) else none

/-- One iteration of the combine loop of `fft` (fft.c lines 29-36), at index `k`:
the twiddle `wk`, the product `oddk = wk * odd[k]`, and the two writes
`a[k] = even[k] + oddk`, `a[k + n/2] = even[k] - oddk`. -/
def combineStep [Field R] (cos sin : R → R) (PI : R) (n : Int)
    (even odd : List (complex_t R)) (a : List (complex_t R)) (k : Nat) :
    Option (List (complex_t R)) := do
  let t : R := -2 * PI * (k : R) / (n : R)
  let wk : complex_t R := ⟨cos t, sin t⟩
  let ok ← odd[k]?
  let ek ← even[k]?
  let oddk : complex_t R :=
    ⟨wk.re * ok.re - wk.im * ok.im, wk.re * ok.im + wk.im * ok.re⟩
  let a ← store a k ⟨ek.re + oddk.re, ek.im + oddk.im⟩
  store a (k + (n.tdiv 2).toNat) ⟨ek.re - oddk.re, ek.im - oddk.im⟩

/-- The function `void fft(complex_t *a, int n)` of `fft.c`, returning the buffer `a`
as it is left on return.  `n / 2` is C integer division (`Int.tdiv`); the two
`for` loops run over `0 .. n/2 - 1`. -/
def fft [Field R] (cos sin : R → R) (PI : R) (a : List (complex_t R)) (n : Int) :
    Option (List (complex_t R)) :=
  if h : n ≤ 1 then some a
  else do
    -- Divide
    let even ← (List.range (n.tdiv 2).toNat).mapM (fun i => a[i * 2]?)
    let odd ← (List.range (n.tdiv 2).toNat).mapM (fun i => a[i * 2 + 1]?)
    -- Conquer
    let even ← fft cos sin PI even (n.tdiv 2)
    let odd ← fft cos sin PI odd (n.tdiv 2)
    -- Combine
    (List.range (n.tdiv 2).toNat).foldlM (combineStep cos sin PI n even odd) a
termination_by n.toNat
decreasing_by
  all_goals
    have h3 : n.tdiv 2 = n / 2 := Int.tdiv_eq_ediv (by omega) (by norm_num)
    rw [h3]
    omega

/-! ## Pure description of one level of the recursion -/

/-- Element `i` of a buffer, `(0, 0)` outside it. -/
def nth [Zero R] (a : List (complex_t R)) (i : Nat) : complex_t R := a.getD i ⟨0, 0⟩

/-- Componentwise sum of two samples. -/
def cadd [Add R] (z w : complex_t R) : complex_t R := ⟨z.re + w.re, z.im + w.im⟩

/-- Componentwise difference of two samples. -/
def csub [Sub R] (z w : complex_t R) : complex_t R := ⟨z.re - w.re, z.im - w.im⟩

/-- Complex product, as written out in the combine loop. -/
def cmul [Mul R] [Add R] [Sub R] (w z : complex_t R) : complex_t R :=
  ⟨w.re * z.re - w.im * z.im, w.re * z.im + w.im * z.re⟩

/-- The twiddle factor `wk` of the combine loop for size `n` and index `k`. -/
def twiddle [Field R] (cos sin : R → R) (PI : R) (n : Int) (k : Nat) : complex_t R :=
  ⟨cos (-2 * PI * (k : R) / (n : R)), sin (-2 * PI * (k : R) / (n : R))⟩

/-- Value of cell `j` of the buffer after the first `m` iterations of the combine loop. -/
def combinedAt [Field R] (cos sin : R → R) (PI : R) (n : Int)
    (E O a : List (complex_t R)) (m j : Nat) : complex_t R :=
  if j < m then cadd (nth E j) (cmul (twiddle cos sin PI n j) (nth O j))
  else if (n.tdiv 2).toNat ≤ j ∧ j < (n.tdiv 2).toNat + m then
    csub (nth E (j - (n.tdiv 2).toNat))
      (cmul (twiddle cos sin PI n (j - (n.tdiv 2).toNat)) (nth O (j - (n.tdiv 2).toNat)))
  else nth a j

/-- The `even` buffer after the divide loop: samples `a[0], a[2], ...`, `h` of them. -/
def evens [Zero R] (a : List (complex_t R)) (h : Nat) : List (complex_t R) :=
  (List.range h).map (fun i => nth a (i * 2))

/-- The `odd` buffer after the divide loop: samples `a[1], a[3], ...`, `h` of them. -/
def odds [Zero R] (a : List (complex_t R)) (h : Nat) : List (complex_t R) :=
  (List.range h).map (fun i => nth a (i * 2 + 1))

/-- A sample over the reals read as a complex number. -/
def toC (z : complex_t ℝ) : ℂ := ⟨z.re, z.im⟩

/-- Componentwise sum `a + b` of two sequences. -/
def seqAdd [Add R] (a b : List (complex_t R)) : List (complex_t R) :=
  List.zipWith cadd a b

/-- The energy of a sequence: the sum of `|a[i]|^2 = re^2 + im^2` over its samples. -/
def energy [Field R] (a : List (complex_t R)) : R :=
  (a.map (fun z => z.re * z.re + z.im * z.im)).sum

/-- Modelled from the spec: the inverse transform, which `fft.c` does not contain.
"The same algorithm with twiddle sign flipped and each output scaled by 1/N": `fft` is run
with the angle negated inside `cos` and `sin`, so that its twiddle is
`(cos(+2πk/n), sin(+2πk/n))`, and every output sample is multiplied by `1/n`. -/
def inverse [Field R] (cos sin : R → R) (PI : R) (x : List (complex_t R)) (n : Int) :
    Option (List (complex_t R)) :=
  (fft (fun t => cos (-t)) (fun t => sin (-t)) PI x n).map
    (fun out => out.map (fun z => ⟨1 / (n : R) * z.re, 1 / (n : R) * z.im⟩))

/-! ## The benchmark drivers and the recursion skeleton -/

/-- The input loop of `main` in `fft.c` (lines 47-50): for `i = 0 .. N-1`, sample `i` of the
buffer is `(cos(2*PI*i/N), sin(2*PI*i/N))`. -/
def init_input [Field R] (cos sin : R → R) (PI : R) (N : Int) : List (complex_t R) :=
  (List.range N.toNat).map
    (fun (i : Nat) =>
      (⟨cos (2 * PI * (i : R) / (N : R)), sin (2 * PI * (i : R) / (N : R))⟩ : complex_t R))

/-- The function `main` of `fft.c` for the compile-time size `N`: build the input, run
`fft(a, N)`, and report the sample `a[0]` whose two components are printed. -/
def fft_main [Field R] (cos sin : R → R) (PI : R) (N : Int) : Option (complex_t R) := do
  let a ← fft cos sin PI (init_input cos sin PI N) N
  a[0]?

/-- Nesting depth of the recursive calls below `fft(a, n)`: none when `n <= 1`, otherwise one
more than the deeper of the two calls `fft(even, n/2)` and `fft(odd, n/2)`.  The guard and the
sizes passed down depend on `n` alone, not on the samples. -/
def fftDepth (n : Int) : Nat :=
  if h : n ≤ 1 then 0
  else 1 + max (fftDepth (n.tdiv 2)) (fftDepth (n.tdiv 2))
termination_by n.toNat
decreasing_by
  all_goals
    have h3 : n.tdiv 2 = n / 2 := Int.tdiv_eq_ediv (by omega) (by norm_num)
    rw [h3]
    omega

/-- The size arguments of all recursive calls made below `fft(a, n)`, in call order: the call
`fft(even, n/2)` and the calls below it, then `fft(odd, n/2)` and the calls below it. -/
def fftCallSizes (n : Int) : List Int :=
  if _ : n ≤ 1 then []
  else (n.tdiv 2 :: fftCallSizes (n.tdiv 2)) ++ (n.tdiv 2 :: fftCallSizes (n.tdiv 2))
termination_by n.toNat
decreasing_by
  all_goals
    have h3 : n.tdiv 2 = n / 2 := Int.tdiv_eq_ediv (by omega) (by norm_num)
    rw [h3]
    omega

/-! ## `mm.c`: dense matrix multiply -/

/-- The three global arrays `double A[N][N], B[N][N], C[N][N]` of `mm.c`, each a map from a
pair of indices to its value.  Every value the program stores is an integer, so the cells
hold an `Int`. -/
structure mm_globals where
  A : Nat → Nat → Int
  B : Nat → Nat → Int
  C : Nat → Nat → Int

/-- The assignment `M[i][j] = v`. -/
def setCell (M : Nat → Nat → Int) (i j : Nat) (v : Int) : Nat → Nat → Int :=
  fun i2 j2 => if i2 = i ∧ j2 = j then v else M i2 j2

/-- Body of the initialisation loops of `mm.c` (lines 12-14); `%` is the C remainder. -/
def mm_init_cell (s : mm_globals) (i j : Nat) : mm_globals :=
  { A := setCell s.A i j (Int.tmod ((i : Int) + (j : Int)) 100),
    B := setCell s.B i j (Int.tmod ((i : Int) - (j : Int)) 100),
    C := setCell s.C i j 0 }

/-- The initialisation loops of `mm.c` (lines 10-16). -/
def mm_init (N : Nat) (s : mm_globals) : mm_globals :=
  (List.range N).foldl (fun s i => (List.range N).foldl (fun s j => mm_init_cell s i j) s) s

/-- The variable `sum` of `mm.c` after `n` iterations of the innermost loop (lines 21-24). -/
def mm_dot (A B : Nat → Nat → Int) (i j n : Nat) : Int :=
  (List.range n).foldl (fun sum k => sum + A i k * B k j) 0

/-- The multiplication loops of `mm.c` (lines 19-27). -/
def mm_multiply (N : Nat) (s : mm_globals) : mm_globals :=
  (List.range N).foldl
    (fun s i => (List.range N).foldl
      (fun s j => { s with C := setCell s.C i j (mm_dot s.A s.B i j N) }) s) s

/-- The globals of `mm.c` when `main` reaches its `printf`, for matrix size `N`; the arrays
start zeroed, as C globals do. -/
def mm_run (N : Nat) : mm_globals :=
  mm_multiply N (mm_init N ⟨fun _ _ => 0, fun _ _ => 0, fun _ _ => 0⟩)

/-- The function `main` of `mm.c`: the element `C[0][0]` that is printed. -/
def mm_main (N : Nat) : Int := (mm_run N).C 0 0

/-! ## `branchy_test.c`: the branch-count loop -/

/-- A value reduced to the range of a 32-bit signed `int`. -/
def wrap32 (x : Int) : Int := (x + 2 ^ 31) % 2 ^ 32 - 2 ^ 31

/-- Body of the loop of `branchy_test.c` (lines 12-17) for the `rand()` result `r`:
`x = r % 100` (C remainder), then `count++` when `x < 50` and `count--` otherwise. -/
def branchy_step (count : Int) (r : Int) : Int :=
  if Int.tmod r 100 < 50 then wrap32 (count + 1) else wrap32 (count - 1)

/-- The function `main` of `branchy_test.c` run for `N` iterations, the `i`-th call of
`rand()` returning `rand i`: the value of `count` after the loop. -/
def branchy_main (rand : Nat → Int) (N : Nat) : Int :=
  (List.range N).foldl (fun count i => branchy_step count (rand i)) 0

/-- Number of the first `i` draws with `rand() % 100 < 50`. -/
def hits (rand : Nat → Int) (i : Nat) : Nat :=
  ((List.range i).filter (fun t => decide (Int.tmod (rand t) 100 < 50))).length

/-! ## The loops -/

theorem mapM_range_get {α : Type} (a : List α) (f : Nat → Nat) (d : α) :
    ∀ h : Nat, (∀ i, i < h → f i < a.length) →
      (List.range h).mapM (fun i => a[f i]?) =
        some ((List.range h).map (fun i => a.getD (f i) d)) := by
  intro h
  induction h with
  | zero => intro _; rfl
  | succ m ih =>
    intro hb
    have h1 := ih (fun i hi => hb i (Nat.lt_succ_of_lt hi))
    have h2 : f m < a.length := hb m (Nat.lt_succ_self m)
    rw [List.range_succ, List.mapM_append, h1, List.mapM_cons, List.mapM_nil]
    simp [List.getElem?_eq_getElem h2, List.getD_eq_getElem?_getD]

theorem nth_set [Zero R] (a : List (complex_t R)) (i j : Nat) (v : complex_t R)
    (hi : i < a.length) : nth (a.set i v) j = if i = j then v else nth a j := by
  unfold nth
  rw [List.getD_eq_getElem?_getD, List.getElem?_set, List.getD_eq_getElem?_getD]
  by_cases h : i = j
  · subst h
    simp [hi]
  · simp [h]

theorem nth_eq_of_getElem? [Zero R] (a : List (complex_t R)) (i : Nat) (hi : i < a.length) :
    a[i]? = some (nth a i) := by
  unfold nth
  rw [List.getElem?_eq_getElem hi, List.getD_eq_getElem _ _ hi]

theorem combine_loop [Field R] (cos sin : R → R) (PI : R) (n : Int)
    (E O a : List (complex_t R))
    (hE : (n.tdiv 2).toNat ≤ E.length) (hO : (n.tdiv 2).toNat ≤ O.length)
    (ha : 2 * (n.tdiv 2).toNat ≤ a.length) :
    ∀ m : Nat, m ≤ (n.tdiv 2).toNat →
      ∃ out, (List.range m).foldlM (combineStep cos sin PI n E O) a = some out ∧
        out.length = a.length ∧ ∀ j, nth out j = combinedAt cos sin PI n E O a m j := by
  intro m
  induction m with
  | zero =>
    intro _
    refine ⟨a, rfl, rfl, fun j => ?_⟩
    unfold combinedAt
    have h1 : ¬ j < 0 := Nat.not_lt_zero j
    have h2 : ¬ ((n.tdiv 2).toNat ≤ j ∧ j < (n.tdiv 2).toNat + 0) := by omega
    rw [if_neg h1, if_neg h2]
  | succ m ih =>
    intro hm
    obtain ⟨out, hout, hlen, hget⟩ := ih (Nat.le_of_succ_le hm)
    have hmE : m < E.length := by omega
    have hmO : m < O.length := by omega
    have hm1 : m < out.length := by omega
    have hm2 : m + (n.tdiv 2).toNat < (out.set m
        (cadd (nth E m) (cmul (twiddle cos sin PI n m) (nth O m)))).length := by
      rw [List.length_set]; omega
    refine ⟨(out.set m (cadd (nth E m) (cmul (twiddle cos sin PI n m) (nth O m)))).set
        (m + (n.tdiv 2).toNat)
        (csub (nth E m) (cmul (twiddle cos sin PI n m) (nth O m))), ?_, ?_, ?_⟩
    · rw [List.range_succ, List.foldlM_append, hout]
      simp only [List.foldlM_cons, List.foldlM_nil, combineStep, store,
        nth_eq_of_getElem? E m hmE, nth_eq_of_getElem? O m hmO]
      simp [hm1, cadd, csub, cmul, twiddle]
      omega
    · rw [List.length_set, List.length_set, hlen]
    · intro j
      rw [nth_set _ _ _ _ hm2, nth_set _ _ _ _ hm1, hget j]
      unfold combinedAt
      by_cases c1 : m + (n.tdiv 2).toNat = j
      · have e1 : ¬ j < m + 1 := by omega
        have e2 : (n.tdiv 2).toNat ≤ j ∧ j < (n.tdiv 2).toNat + (m + 1) := by omega
        have e3 : j - (n.tdiv 2).toNat = m := by omega
        rw [if_pos c1, if_neg e1, if_pos e2, e3]
      · rw [if_neg c1]
        by_cases c2 : m = j
        · have e1 : j < m + 1 := by omega
          rw [if_pos c2, if_pos e1, c2]
        · rw [if_neg c2]
          by_cases c3 : j < m
          · have e1 : j < m + 1 := by omega
            rw [if_pos c3, if_pos e1]
          · have e1 : ¬ j < m + 1 := by omega
            rw [if_neg c3, if_neg e1]
            by_cases c4 : (n.tdiv 2).toNat ≤ j ∧ j < (n.tdiv 2).toNat + m
            · have e2 : (n.tdiv 2).toNat ≤ j ∧ j < (n.tdiv 2).toNat + (m + 1) := by omega
              rw [if_pos c4, if_pos e2]
            · have e2 : ¬ ((n.tdiv 2).toNat ≤ j ∧ j < (n.tdiv 2).toNat + (m + 1)) := by omega
              rw [if_neg c4, if_neg e2]

theorem tdiv_two_toNat (n : Int) (hn : 2 ≤ n) :
    n.tdiv 2 = n / 2 ∧ 2 * (n.tdiv 2).toNat ≤ n.toNat ∧ 1 ≤ (n.tdiv 2).toNat ∧
      (n.tdiv 2).toNat < n.toNat := by
  have h3 : n.tdiv 2 = n / 2 := Int.tdiv_eq_ediv (by omega) (by norm_num)
  rw [h3]
  omega

theorem fft_le_one [Field R] (cos sin : R → R) (PI : R) (a : List (complex_t R)) (n : Int)
    (hn : n ≤ 1) : fft cos sin PI a n = some a := by
  rw [fft, dif_pos hn]

theorem fft_step [Field R] (cos sin : R → R) (PI : R) (a : List (complex_t R)) (n : Int)
    (hn : 2 ≤ n) (ha : n.toNat ≤ a.length) (E O : List (complex_t R))
    (hE : fft cos sin PI (evens a (n.tdiv 2).toNat) (n.tdiv 2) = some E)
    (hO : fft cos sin PI (odds a (n.tdiv 2).toNat) (n.tdiv 2) = some O)
    (hEl : E.length = (n.tdiv 2).toNat) (hOl : O.length = (n.tdiv 2).toNat) :
    ∃ out, fft cos sin PI a n = some out ∧ out.length = a.length ∧
      ∀ j, nth out j = combinedAt cos sin PI n E O a (n.tdiv 2).toNat j := by
  obtain ⟨-, h2, -, -⟩ := tdiv_two_toNat n hn
  have hn1 : ¬ n ≤ 1 := by omega
  have hev : (List.range (n.tdiv 2).toNat).mapM (fun i => a[i * 2]?) =
      some (evens a (n.tdiv 2).toNat) :=
    mapM_range_get a (fun i => i * 2) ⟨0, 0⟩ _ (fun i hi => by show i * 2 < a.length; omega)
  have hod : (List.range (n.tdiv 2).toNat).mapM (fun i => a[i * 2 + 1]?) =
      some (odds a (n.tdiv 2).toNat) :=
    mapM_range_get a (fun i => i * 2 + 1) ⟨0, 0⟩ _
      (fun i hi => by show i * 2 + 1 < a.length; omega)
  obtain ⟨out, h1, h3, h4⟩ := combine_loop cos sin PI n E O a (le_of_eq hEl.symm)
    (le_of_eq hOl.symm) (by omega) (n.tdiv 2).toNat (le_refl _)
  refine ⟨out, ?_, h3, h4⟩
  rw [fft, dif_neg hn1, hev, hod]
  simp only [Option.bind_eq_bind, Option.some_bind, hE, hO]
  exact h1

theorem evens_length [Zero R] (a : List (complex_t R)) (h : Nat) : (evens a h).length = h := by
  simp [evens]

theorem odds_length [Zero R] (a : List (complex_t R)) (h : Nat) : (odds a h).length = h := by
  simp [odds]

theorem fft_total [Field R] (cos sin : R → R) (PI : R) :
    ∀ (N : Nat) (n : Int) (a : List (complex_t R)), n.toNat ≤ N → n.toNat ≤ a.length →
      ∃ out, fft cos sin PI a n = some out ∧ out.length = a.length := by
  intro N
  induction N with
  | zero =>
    intro n a h0 _
    exact ⟨a, fft_le_one cos sin PI a n (by omega), rfl⟩
  | succ N ih =>
    intro n a hN ha
    by_cases hn : n ≤ 1
    · exact ⟨a, fft_le_one cos sin PI a n hn, rfl⟩
    · have hn2 : 2 ≤ n := by omega
      obtain ⟨-, h2, -, h4⟩ := tdiv_two_toNat n hn2
      obtain ⟨E, hE, hEl⟩ := ih (n.tdiv 2) (evens a (n.tdiv 2).toNat) (by omega)
        (by rw [evens_length])
      obtain ⟨O, hO, hOl⟩ := ih (n.tdiv 2) (odds a (n.tdiv 2).toNat) (by omega)
        (by rw [odds_length])
      rw [evens_length] at hEl
      rw [odds_length] at hOl
      obtain ⟨out, h5, h6, -⟩ := fft_step cos sin PI a n hn2 ha E O hE hO hEl hOl
      exact ⟨out, h5, h6⟩

/-! ## The transform as a discrete Fourier transform -/

theorem toC_cadd (z w : complex_t ℝ) : toC (cadd z w) = toC z + toC w := by
  apply Complex.ext <;> simp [toC, cadd]

theorem toC_csub (z w : complex_t ℝ) : toC (csub z w) = toC z - toC w := by
  apply Complex.ext <;> simp [toC, csub]

theorem toC_cmul (z w : complex_t ℝ) : toC (cmul z w) = toC z * toC w := by
  apply Complex.ext <;> simp [toC, cmul]

theorem toC_injective (z w : complex_t ℝ) (h : toC z = toC w) : z = w := by
  cases z; cases w
  simp only [toC, Complex.mk.injEq] at h
  simp [h.1, h.2]

theorem sum_range_even_odd (f : ℕ → ℂ) (h : ℕ) :
    ∑ j ∈ Finset.range (2 * h), f j =
      ∑ i ∈ Finset.range h, f (2 * i) + ∑ i ∈ Finset.range h, f (2 * i + 1) := by
  induction h with
  | zero => simp
  | succ h ih =>
    have e : 2 * (h + 1) = 2 * h + 1 + 1 := by ring
    rw [e, Finset.sum_range_succ, Finset.sum_range_succ, ih, Finset.sum_range_succ,
      Finset.sum_range_succ]
    ring

theorem dft_split (f : ℕ → ℂ) (W w : ℂ) (h k : ℕ) (hW : W ^ 2 = w) :
    ∑ j ∈ Finset.range (2 * h), f j * W ^ (j * k) =
      ∑ i ∈ Finset.range h, f (2 * i) * w ^ (i * k) +
        W ^ k * ∑ i ∈ Finset.range h, f (2 * i + 1) * w ^ (i * k) := by
  rw [sum_range_even_odd, Finset.mul_sum]
  congr 1
  · apply Finset.sum_congr rfl
    intro i _
    rw [← hW, ← pow_mul, mul_assoc]
  · apply Finset.sum_congr rfl
    intro i _
    rw [← hW, ← pow_mul]
    have e : (2 * i + 1) * k = k + 2 * (i * k) := by ring
    rw [e, pow_add]
    ring

theorem dft_split_hi (f : ℕ → ℂ) (W w : ℂ) (h k : ℕ) (hW : W ^ 2 = w) (hh : W ^ h = -1) :
    ∑ j ∈ Finset.range (2 * h), f j * W ^ (j * (k + h)) =
      ∑ i ∈ Finset.range h, f (2 * i) * w ^ (i * k) -
        W ^ k * ∑ i ∈ Finset.range h, f (2 * i + 1) * w ^ (i * k) := by
  have hw : w ^ h = 1 := by
    rw [← hW, ← pow_mul, mul_comm, pow_mul, hh]; norm_num
  have e : ∀ i : ℕ, w ^ (i * (k + h)) = w ^ (i * k) := by
    intro i
    rw [mul_add, pow_add, mul_comm i h, pow_mul w h i, hw, one_pow, mul_one]
  rw [dft_split f W w h (k + h) hW, pow_add, hh]
  simp only [e]
  ring

theorem nth_evens [Zero R] (a : List (complex_t R)) (h i : Nat) (hi : i < h) :
    nth (evens a h) i = nth a (i * 2) := by
  unfold evens
  conv_lhs => unfold nth
  rw [List.getD_eq_getElem?_getD, List.getElem?_map, List.getElem?_range hi]
  rfl

theorem nth_odds [Zero R] (a : List (complex_t R)) (h i : Nat) (hi : i < h) :
    nth (odds a h) i = nth a (i * 2 + 1) := by
  unfold odds
  conv_lhs => unfold nth
  rw [List.getD_eq_getElem?_getD, List.getElem?_map, List.getElem?_range hi]
  rfl

theorem pow_two_tdiv (m : ℕ) :
    (((2 ^ (m + 1) : ℕ) : ℤ)).tdiv 2 = ((2 ^ m : ℕ) : ℤ) := by
  have h : 2 ^ (m + 1) = 2 * 2 ^ m := by ring
  have h3 : (((2 ^ (m + 1) : ℕ) : ℤ)).tdiv 2 = ((2 ^ (m + 1) : ℕ) : ℤ) / 2 :=
    Int.tdiv_eq_ediv (by positivity) (by norm_num)
  rw [h3]
  omega

theorem fft_dft_core (cs sn : ℝ → ℝ) (PI : ℝ) (W : ℕ → ℂ)
    (hsq : ∀ m, W (m + 1) ^ 2 = W m) (hhalf : ∀ m, W (m + 1) ^ (2 ^ m) = -1)
    (htw : ∀ m k, toC (twiddle cs sn PI ((2 ^ m : ℕ) : ℤ) k) = W m ^ k) :
    ∀ (m : ℕ) (s : List (complex_t ℝ)), s.length = 2 ^ m →
      ∃ out, fft cs sn PI s ((2 ^ m : ℕ) : ℤ) = some out ∧ out.length = 2 ^ m ∧
        ∀ k, k < 2 ^ m →
          toC (nth out k) = ∑ j ∈ Finset.range (2 ^ m), toC (nth s j) * W m ^ (j * k) := by
  intro m
  induction m with
  | zero =>
    intro s hs
    refine ⟨s, fft_le_one cs sn PI s _ (by norm_num), hs, ?_⟩
    intro k hk
    have hk0 : k = 0 := by omega
    subst hk0
    simp
  | succ m ih =>
    intro s hs
    have hd := pow_two_tdiv m
    have hp : 2 ^ (m + 1) = 2 * 2 ^ m := by ring
    have hpos : 1 ≤ 2 ^ m := Nat.one_le_two_pow
    obtain ⟨E, hE, hEl, hEv⟩ := ih (evens s (2 ^ m)) (evens_length s _)
    obtain ⟨O, hO, hOl, hOv⟩ := ih (odds s (2 ^ m)) (odds_length s _)
    have hdn : ((((2 ^ (m + 1) : ℕ) : ℤ)).tdiv 2).toNat = 2 ^ m := by
      rw [hd, Int.toNat_natCast]
    obtain ⟨out, hout, hlen, hval⟩ := fft_step cs sn PI s ((2 ^ (m + 1) : ℕ) : ℤ)
      (by omega) (by rw [Int.toNat_natCast, hs]) E O
      (by rw [hdn, hd]; exact hE) (by rw [hdn, hd]; exact hO)
      (by rw [hdn]; exact hEl) (by rw [hdn]; exact hOl)
    refine ⟨out, hout, by rw [hlen, hs], ?_⟩
    intro k hk
    have hEs : ∑ i ∈ Finset.range (2 ^ m), toC (nth (evens s (2 ^ m)) i) * W m ^ (i * (k % 2 ^ m))
        = ∑ i ∈ Finset.range (2 ^ m), toC (nth s (2 * i)) * W m ^ (i * (k % 2 ^ m)) := by
      apply Finset.sum_congr rfl
      intro i hi
      rw [nth_evens s _ i (Finset.mem_range.mp hi), mul_comm i 2]
    have hOs : ∑ i ∈ Finset.range (2 ^ m), toC (nth (odds s (2 ^ m)) i) * W m ^ (i * (k % 2 ^ m))
        = ∑ i ∈ Finset.range (2 ^ m), toC (nth s (2 * i + 1)) * W m ^ (i * (k % 2 ^ m)) := by
      apply Finset.sum_congr rfl
      intro i hi
      rw [nth_odds s _ i (Finset.mem_range.mp hi), mul_comm i 2]
    have hkm : k % 2 ^ m < 2 ^ m := Nat.mod_lt _ (by omega)
    rw [hval k, show Finset.range (2 ^ (m + 1)) = Finset.range (2 * 2 ^ m) from by rw [hp]]
    unfold combinedAt
    rw [hdn]
    by_cases c : k < 2 ^ m
    · have e : k % 2 ^ m = k := Nat.mod_eq_of_lt c
      rw [e] at hEs hOs
      rw [if_pos c, toC_cadd, toC_cmul, htw, hEv k c, hOv k c, hEs, hOs,
        dft_split (fun j => toC (nth s j)) (W (m + 1)) (W m) (2 ^ m) k (hsq m)]
    · have c2 : 2 ^ m ≤ k ∧ k < 2 ^ m + 2 ^ m := by omega
      have hk2 : k - 2 ^ m < 2 ^ m := by omega
      have e : k % 2 ^ m = k - 2 ^ m := by
        rw [Nat.mod_eq_sub_mod c2.1, Nat.mod_eq_of_lt hk2]
      rw [e] at hEs hOs
      have e2 : k = (k - 2 ^ m) + 2 ^ m := by omega
      rw [if_neg c, if_pos c2, toC_csub, toC_cmul, htw, hEv _ hk2, hOv _ hk2, hEs, hOs]
      conv_rhs => rw [e2]
      rw [dft_split_hi (fun j => toC (nth s j)) (W (m + 1)) (W m) (2 ^ m) (k - 2 ^ m) (hsq m)
        (hhalf m)]

theorem toC_cos_sin (θ : ℝ) :
    toC ⟨Real.cos θ, Real.sin θ⟩ = Complex.exp ((θ : ℂ) * Complex.I) := by
  apply Complex.ext
  · rw [Complex.exp_ofReal_mul_I_re]; rfl
  · rw [Complex.exp_ofReal_mul_I_im]; rfl

theorem root_sq (σ : ℝ) (m : ℕ) :
    Complex.exp (((σ * (-2 * Real.pi / 2 ^ (m + 1)) : ℝ) : ℂ) * Complex.I) ^ 2 =
      Complex.exp (((σ * (-2 * Real.pi / 2 ^ m) : ℝ) : ℂ) * Complex.I) := by
  rw [← Complex.exp_nat_mul]
  congr 1
  push_cast
  field_simp
  ring

theorem root_half (σ : ℝ) (hσ : σ = 1 ∨ σ = -1) (m : ℕ) :
    Complex.exp (((σ * (-2 * Real.pi / 2 ^ (m + 1)) : ℝ) : ℂ) * Complex.I) ^ (2 ^ m) = -1 := by
  rw [← Complex.exp_nat_mul]
  rcases hσ with h | h
  · have e : ((2 ^ m : ℕ) : ℂ) * (((σ * (-2 * Real.pi / 2 ^ (m + 1)) : ℝ) : ℂ) * Complex.I) =
        -((Real.pi : ℂ) * Complex.I) := by
      rw [h]; push_cast; field_simp; ring
    rw [e, Complex.exp_neg, Complex.exp_pi_mul_I]
    norm_num
  · have e : ((2 ^ m : ℕ) : ℂ) * (((σ * (-2 * Real.pi / 2 ^ (m + 1)) : ℝ) : ℂ) * Complex.I) =
        (Real.pi : ℂ) * Complex.I := by
      rw [h]; push_cast; field_simp; ring
    rw [e, Complex.exp_pi_mul_I]

theorem root_twiddle (cs sn : ℝ → ℝ) (σ : ℝ) (hcs : ∀ t, cs t = Real.cos (σ * t))
    (hsn : ∀ t, sn t = Real.sin (σ * t)) (m k : ℕ) :
    toC (twiddle cs sn Real.pi ((2 ^ m : ℕ) : ℤ) k) =
      Complex.exp (((σ * (-2 * Real.pi / 2 ^ m) : ℝ) : ℂ) * Complex.I) ^ k := by
  unfold twiddle
  rw [hcs, hsn, toC_cos_sin, ← Complex.exp_nat_mul]
  congr 1
  push_cast
  ring

theorem fft_dft_sigma (cs sn : ℝ → ℝ) (σ : ℝ) (hσ : σ = 1 ∨ σ = -1)
    (hcs : ∀ t, cs t = Real.cos (σ * t)) (hsn : ∀ t, sn t = Real.sin (σ * t))
    (m : ℕ) (s : List (complex_t ℝ)) (hs : s.length = 2 ^ m) :
    ∃ out, fft cs sn Real.pi s ((2 ^ m : ℕ) : ℤ) = some out ∧ out.length = 2 ^ m ∧
      ∀ k, k < 2 ^ m →
        toC (nth out k) = ∑ j ∈ Finset.range (2 ^ m), toC (nth s j) *
          Complex.exp (((σ * (-2 * Real.pi / 2 ^ m) : ℝ) : ℂ) * Complex.I) ^ (j * k) :=
  fft_dft_core cs sn Real.pi
    (fun m => Complex.exp (((σ * (-2 * Real.pi / 2 ^ m) : ℝ) : ℂ) * Complex.I))
    (root_sq σ) (root_half σ hσ) (root_twiddle cs sn σ hcs hsn) m s hs

/-! ## Orthogonality of the roots of unity -/

theorem orth (ζ : ℂ) (N : ℕ) (hζ : IsPrimitiveRoot ζ N) (l k : ℕ) (hl : l < N) (hk : k < N) :
    ∑ j ∈ Finset.range N, ζ ^ (l * j) * ζ⁻¹ ^ (j * k) = if l = k then (N : ℂ) else 0 := by
  have hN : 0 < N := by omega
  have hz0 : ζ ≠ 0 := hζ.ne_zero (by omega)
  have e : ∀ j : ℕ, ζ ^ (l * j) * ζ⁻¹ ^ (j * k) = (ζ ^ ((l : ℤ) - k)) ^ j := by
    intro j
    rw [zpow_sub₀ hz0, div_eq_mul_inv, mul_pow, zpow_natCast, zpow_natCast, ← pow_mul,
      ← inv_pow, ← pow_mul, mul_comm k j]
  simp only [e]
  by_cases c : l = k
  · subst c
    simp
  · rw [if_neg c]
    have hne : ζ ^ ((l : ℤ) - k) ≠ 1 := by
      intro h1
      have hd := (hζ.zpow_eq_one_iff_dvd _).mp h1
      have : (l : ℤ) - k = 0 := by
        apply Int.eq_zero_of_abs_lt_dvd hd
        rw [abs_lt]
        constructor <;> omega
      omega
    rw [geom_sum_eq hne, ← zpow_natCast, ← zpow_mul, mul_comm, zpow_mul, zpow_natCast,
      hζ.pow_eq_one]
    simp

theorem dft_inversion (f : ℕ → ℂ) (N : ℕ) (ζ : ℂ) (hζ : IsPrimitiveRoot ζ N) (k : ℕ)
    (hk : k < N) :
    ∑ j ∈ Finset.range N, (∑ l ∈ Finset.range N, f l * ζ ^ (l * j)) * ζ⁻¹ ^ (j * k) =
      (N : ℂ) * f k := by
  have e : ∀ j ∈ Finset.range N,
      (∑ l ∈ Finset.range N, f l * ζ ^ (l * j)) * ζ⁻¹ ^ (j * k) =
        ∑ l ∈ Finset.range N, f l * (ζ ^ (l * j) * ζ⁻¹ ^ (j * k)) := by
    intro j _
    rw [Finset.sum_mul]
    apply Finset.sum_congr rfl
    intro l _
    ring
  rw [Finset.sum_congr rfl e, Finset.sum_comm]
  have e2 : ∀ l ∈ Finset.range N,
      ∑ j ∈ Finset.range N, f l * (ζ ^ (l * j) * ζ⁻¹ ^ (j * k)) =
        f l * (if l = k then (N : ℂ) else 0) := by
    intro l hl
    rw [← Finset.mul_sum, orth ζ N hζ l k (Finset.mem_range.mp hl) hk]
  rw [Finset.sum_congr rfl e2]
  simp only [mul_ite, mul_zero]
  rw [Finset.sum_ite_eq' (Finset.range N) k (fun l => f l * (N : ℂ)), if_pos (Finset.mem_range.mpr hk)]
  ring

theorem dft_parseval (f : ℕ → ℂ) (N : ℕ) (ζ : ℂ) (hζ : IsPrimitiveRoot ζ N)
    (hc : (starRingEnd ℂ) ζ = ζ⁻¹) :
    ∑ k ∈ Finset.range N, (∑ l ∈ Finset.range N, f l * ζ ^ (l * k)) *
        (starRingEnd ℂ) (∑ l ∈ Finset.range N, f l * ζ ^ (l * k)) =
      (N : ℂ) * ∑ l ∈ Finset.range N, f l * (starRingEnd ℂ) (f l) := by
  have e : ∀ k ∈ Finset.range N,
      (∑ l ∈ Finset.range N, f l * ζ ^ (l * k)) *
        (starRingEnd ℂ) (∑ l ∈ Finset.range N, f l * ζ ^ (l * k)) =
      ∑ p ∈ Finset.range N, ∑ l ∈ Finset.range N,
        (starRingEnd ℂ) (f p) * (f l * (ζ ^ (l * k) * ζ⁻¹ ^ (k * p))) := by
    intro k _
    rw [map_sum, Finset.mul_sum]
    apply Finset.sum_congr rfl
    intro p _
    rw [Finset.sum_mul]
    apply Finset.sum_congr rfl
    intro l _
    rw [map_mul, map_pow, hc, mul_comm p k]
    ring
  rw [Finset.sum_congr rfl e, Finset.sum_comm, Finset.mul_sum]
  apply Finset.sum_congr rfl
  intro p hp
  rw [Finset.sum_comm]
  have e2 : ∀ l ∈ Finset.range N,
      ∑ k ∈ Finset.range N, (starRingEnd ℂ) (f p) * (f l * (ζ ^ (l * k) * ζ⁻¹ ^ (k * p))) =
        (starRingEnd ℂ) (f p) * (f l * (if l = p then (N : ℂ) else 0)) := by
    intro l hl
    rw [← Finset.mul_sum, ← Finset.mul_sum,
      orth ζ N hζ l p (Finset.mem_range.mp hl) (Finset.mem_range.mp hp)]
  rw [Finset.sum_congr rfl e2]
  simp only [mul_ite, mul_zero]
  rw [Finset.sum_ite_eq' (Finset.range N) p (fun l => (starRingEnd ℂ) (f p) * (f l * (N : ℂ))),
    if_pos hp]
  ring

/-! ## Lists through `nth` -/

theorem nth_of_lt [Zero R] (a : List (complex_t R)) (i : Nat) (hi : i < a.length) :
    nth a i = a[i] := by
  unfold nth
  exact List.getD_eq_getElem _ _ hi

theorem list_ext_nth [Zero R] (a b : List (complex_t R)) (hl : a.length = b.length)
    (h : ∀ k, k < a.length → nth a k = nth b k) : a = b := by
  apply List.ext_get hl
  intro k h1 h2
  have := h k h1
  rw [nth_of_lt a k h1, nth_of_lt b k h2] at this
  simpa using this

theorem nth_map [Zero R] (a : List (complex_t R)) (g : complex_t R → complex_t R) (k : Nat)
    (hk : k < a.length) : nth (a.map g) k = g (nth a k) := by
  rw [nth_of_lt a k hk, nth_of_lt (a.map g) k (by rw [List.length_map]; exact hk)]
  simp

theorem toC_scale (r : ℝ) (z : complex_t ℝ) :
    toC ⟨r * z.re, r * z.im⟩ = (r : ℂ) * toC z := by
  apply Complex.ext <;> simp [toC]

/-! ## The twiddle base is a primitive root of unity -/

theorem root_primitive (m : ℕ) :
    IsPrimitiveRoot
      (Complex.exp (((1 * (-2 * Real.pi / 2 ^ m) : ℝ) : ℂ) * Complex.I)) (2 ^ m) := by
  have h := (Complex.isPrimitiveRoot_exp (2 ^ m) (by positivity)).inv
  rw [← Complex.exp_neg] at h
  have e : -(2 * (Real.pi : ℂ) * Complex.I / ((2 ^ m : ℕ) : ℂ)) =
      ((1 * (-2 * Real.pi / 2 ^ m) : ℝ) : ℂ) * Complex.I := by
    push_cast; ring
  rw [e] at h
  exact h

theorem root_inv (m : ℕ) :
    Complex.exp (((-1 * (-2 * Real.pi / 2 ^ m) : ℝ) : ℂ) * Complex.I) =
      (Complex.exp (((1 * (-2 * Real.pi / 2 ^ m) : ℝ) : ℂ) * Complex.I))⁻¹ := by
  rw [← Complex.exp_neg]
  congr 1
  push_cast
  ring

theorem root_conj (m : ℕ) :
    (starRingEnd ℂ) (Complex.exp (((1 * (-2 * Real.pi / 2 ^ m) : ℝ) : ℂ) * Complex.I)) =
      (Complex.exp (((1 * (-2 * Real.pi / 2 ^ m) : ℝ) : ℂ) * Complex.I))⁻¹ := by
  rw [← Complex.exp_conj, ← Complex.exp_neg, map_mul, Complex.conj_ofReal, Complex.conj_I]
  congr 1
  ring

/-! ## Claims -/

/-- C1: for a sequence `s` whose length `N` is a power of two, `fft(s, N)` returns the discrete
Fourier transform of `s`: `output[k] = Σ_{j<N} s[j] * e^(-2πi·j·k/N)` for every `k < N`,
over exact real arithmetic. -/
theorem fft_computes_dft (s : List (complex_t ℝ)) (m : ℕ) (hs : s.length = 2 ^ m) :
    ∃ out, fft Real.cos Real.sin Real.pi s (s.length : ℤ) = some out ∧
      out.length = s.length ∧
      ∀ k, k < s.length →
        toC (nth out k) = ∑ j ∈ Finset.range s.length,
          toC (nth s j) *
            Complex.exp (-2 * Real.pi * Complex.I * j * k / (s.length : ℂ)) := by
  obtain ⟨out, h1, h2, h3⟩ :=
    fft_dft_sigma Real.cos Real.sin 1 (Or.inl rfl) (by simp) (by simp) m s hs
  rw [hs]
  refine ⟨out, h1, h2, ?_⟩
  intro k hk
  rw [h3 k hk]
  apply Finset.sum_congr rfl
  intro j _
  rw [← Complex.exp_nat_mul]
  congr 2
  push_cast
  ring

/-- Witness of `fft_computes_dft` at a sequence of length 2. -/
theorem fft_computes_dft_witness :
    ([⟨1, 0⟩, ⟨0, 1⟩] : List (complex_t ℝ)).length = 2 ^ 1 ∧
    ∃ out, fft Real.cos Real.sin Real.pi [⟨1, 0⟩, ⟨0, 1⟩]
        (([⟨1, 0⟩, ⟨0, 1⟩] : List (complex_t ℝ)).length : ℤ) = some out ∧
      out.length = ([⟨1, 0⟩, ⟨0, 1⟩] : List (complex_t ℝ)).length ∧
      ∀ k, k < ([⟨1, 0⟩, ⟨0, 1⟩] : List (complex_t ℝ)).length →
        toC (nth out k) = ∑ j ∈ Finset.range ([⟨1, 0⟩, ⟨0, 1⟩] : List (complex_t ℝ)).length,
          toC (nth [⟨1, 0⟩, ⟨0, 1⟩] j) *
            Complex.exp (-2 * Real.pi * Complex.I * j * k /
              (([⟨1, 0⟩, ⟨0, 1⟩] : List (complex_t ℝ)).length : ℂ)) :=
  ⟨rfl, fft_computes_dft [⟨1, 0⟩, ⟨0, 1⟩] 1 rfl⟩

/-- C2: round trip.  With `inverse` the same algorithm run with the twiddle angle negated and
every output scaled by `1/N`, `inverse(fft(s))` is `s` itself for every sequence `s` of
power-of-two length, over exact real arithmetic. -/
theorem inverse_fft_roundtrip (s : List (complex_t ℝ)) (m : ℕ) (hs : s.length = 2 ^ m) :
    ∃ X, fft Real.cos Real.sin Real.pi s (s.length : ℤ) = some X ∧
      inverse Real.cos Real.sin Real.pi X (s.length : ℤ) = some s := by
  obtain ⟨X, hX, hXl, hXv⟩ :=
    fft_dft_sigma Real.cos Real.sin 1 (Or.inl rfl) (by simp) (by simp) m s hs
  obtain ⟨Y, hY, hYl, hYv⟩ :=
    fft_dft_sigma (fun t => Real.cos (-t)) (fun t => Real.sin (-t)) (-1) (Or.inr rfl)
      (by intro t; rw [neg_one_mul]) (by intro t; rw [neg_one_mul]) m X hXl
  rw [hs]
  refine ⟨X, hX, ?_⟩
  unfold inverse
  rw [hY, Option.map_some']
  congr 1
  apply list_ext_nth
  · rw [List.length_map, hYl, hs]
  · intro k hk
    rw [List.length_map, hYl] at hk
    rw [nth_map Y _ k (by rw [hYl]; exact hk)]
    apply toC_injective
    have hN : ((2 ^ m : ℕ) : ℂ) ≠ 0 := by
      have : (2 ^ m : ℕ) ≠ 0 := by positivity
      exact_mod_cast this
    have e1 : toC (nth Y k) = ((2 ^ m : ℕ) : ℂ) * toC (nth s k) := by
      rw [hYv k hk, root_inv m, ← dft_inversion (fun l => toC (nth s l)) (2 ^ m) _
        (root_primitive m) k hk]
      apply Finset.sum_congr rfl
      intro j hj
      rw [hXv j (Finset.mem_range.mp hj)]
    have e2 : ((1 / (((2 ^ m : ℕ) : ℤ) : ℝ) : ℝ) : ℂ) = 1 / ((2 ^ m : ℕ) : ℂ) := by
      push_cast; ring
    rw [toC_scale, e2, e1]
    field_simp

/-- Witness of `inverse_fft_roundtrip` at a sequence of length 2. -/
theorem inverse_fft_roundtrip_witness :
    ([⟨1, 0⟩, ⟨0, 1⟩] : List (complex_t ℝ)).length = 2 ^ 1 ∧
    ∃ X, fft Real.cos Real.sin Real.pi [⟨1, 0⟩, ⟨0, 1⟩]
        (([⟨1, 0⟩, ⟨0, 1⟩] : List (complex_t ℝ)).length : ℤ) = some X ∧
      inverse Real.cos Real.sin Real.pi X
        (([⟨1, 0⟩, ⟨0, 1⟩] : List (complex_t ℝ)).length : ℤ) = some [⟨1, 0⟩, ⟨0, 1⟩] :=
  ⟨rfl, inverse_fft_roundtrip [⟨1, 0⟩, ⟨0, 1⟩] 1 rfl⟩

theorem energy_eq_sum (a : List (complex_t ℝ)) :
    energy a = ∑ i ∈ Finset.range a.length, Complex.normSq (toC (nth a i)) := by
  induction a with
  | nil => simp [energy]
  | cons x a ih =>
    have e : ∀ i : ℕ, nth (x :: a) (i + 1) = nth a i := by
      intro i; simp [nth]
    have e0 : nth (x :: a) 0 = x := by simp [nth]
    rw [List.length_cons, Finset.sum_range_succ']
    simp only [e, e0]
    rw [← ih]
    simp [energy, toC, Complex.normSq_mk]
    ring

/-- C3: energy conservation (Parseval).  For a sequence `s` of power-of-two length `N`,
`Σ_i |s[i]|^2 = (1/N) · Σ_k |fft(s)[k]|^2`, over exact real arithmetic. -/
theorem fft_parseval (s : List (complex_t ℝ)) (m : ℕ) (hs : s.length = 2 ^ m) :
    ∃ out, fft Real.cos Real.sin Real.pi s (s.length : ℤ) = some out ∧
      energy s = 1 / (s.length : ℝ) * energy out := by
  obtain ⟨X, hX, hXl, hXv⟩ :=
    fft_dft_sigma Real.cos Real.sin 1 (Or.inl rfl) (by simp) (by simp) m s hs
  rw [hs]
  refine ⟨X, hX, ?_⟩
  have hN : ((2 ^ m : ℕ) : ℝ) ≠ 0 := by positivity
  have key : energy X = ((2 ^ m : ℕ) : ℝ) * energy s := by
    rw [energy_eq_sum, energy_eq_sum, hXl, hs]
    apply Complex.ofReal_injective
    rw [Complex.ofReal_sum, Complex.ofReal_mul, Complex.ofReal_sum, Complex.ofReal_natCast]
    have h := dft_parseval (fun l => toC (nth s l)) (2 ^ m) _ (root_primitive m) (root_conj m)
    simp only [Complex.mul_conj] at h
    rw [← h]
    apply Finset.sum_congr rfl
    intro k hk
    rw [hXv k (Finset.mem_range.mp hk)]
  rw [key]
  field_simp

/-- Witness of `fft_parseval` at a sequence of length 2. -/
theorem fft_parseval_witness :
    ([⟨1, 0⟩, ⟨0, 1⟩] : List (complex_t ℝ)).length = 2 ^ 1 ∧
    ∃ out, fft Real.cos Real.sin Real.pi [⟨1, 0⟩, ⟨0, 1⟩]
        (([⟨1, 0⟩, ⟨0, 1⟩] : List (complex_t ℝ)).length : ℤ) = some out ∧
      energy ([⟨1, 0⟩, ⟨0, 1⟩] : List (complex_t ℝ)) =
        1 / (([⟨1, 0⟩, ⟨0, 1⟩] : List (complex_t ℝ)).length : ℝ) * energy out :=
  ⟨rfl, fft_parseval [⟨1, 0⟩, ⟨0, 1⟩] 1 rfl⟩

/-! ## Linearity -/

theorem butterfly_add_lin [Field R] (w e1 e2 o1 o2 : complex_t R) :
    cadd (cadd e1 e2) (cmul w (cadd o1 o2)) =
      cadd (cadd e1 (cmul w o1)) (cadd e2 (cmul w o2)) := by
  simp only [cadd, cmul, complex_t.mk.injEq]
  constructor <;> ring

theorem butterfly_sub_lin [Field R] (w e1 e2 o1 o2 : complex_t R) :
    csub (cadd e1 e2) (cmul w (cadd o1 o2)) =
      cadd (csub e1 (cmul w o1)) (csub e2 (cmul w o2)) := by
  simp only [cadd, csub, cmul, complex_t.mk.injEq]
  constructor <;> ring

theorem nth_seqAdd [Field R] (a b : List (complex_t R)) (j : Nat) (ha : j < a.length)
    (hb : j < b.length) : nth (seqAdd a b) j = cadd (nth a j) (nth b j) := by
  have hl : j < (seqAdd a b).length := by
    unfold seqAdd; rw [List.length_zipWith]; omega
  rw [nth_of_lt _ j hl, nth_of_lt a j ha, nth_of_lt b j hb]
  unfold seqAdd
  rw [List.getElem_zipWith]

theorem fft_linear_core [Field R] (cos sin : R → R) (PI : R) :
    ∀ (N : Nat) (n : Int) (a b c : List (complex_t R)), n.toNat ≤ N → n.toNat ≤ a.length →
      b.length = a.length → c.length = a.length →
      (∀ j, j < a.length → nth c j = cadd (nth a j) (nth b j)) →
      ∃ A B C, fft cos sin PI a n = some A ∧ fft cos sin PI b n = some B ∧
        fft cos sin PI c n = some C ∧ A.length = a.length ∧ B.length = a.length ∧
        C.length = a.length ∧ ∀ j, j < a.length → nth C j = cadd (nth A j) (nth B j) := by
  intro N
  induction N with
  | zero =>
    intro n a b c h0 _ hb hc hv
    have hn : n ≤ 1 := by omega
    exact ⟨a, b, c, fft_le_one cos sin PI a n hn, fft_le_one cos sin PI b n hn,
      fft_le_one cos sin PI c n hn, rfl, hb, hc, hv⟩
  | succ N ih =>
    intro n a b c hN ha hb hc hv
    by_cases hn : n ≤ 1
    · exact ⟨a, b, c, fft_le_one cos sin PI a n hn, fft_le_one cos sin PI b n hn,
        fft_le_one cos sin PI c n hn, rfl, hb, hc, hv⟩
    · have hn2 : 2 ≤ n := by omega
      obtain ⟨-, h2, -, h4⟩ := tdiv_two_toNat n hn2
      obtain ⟨EA, EB, EC, hEA, hEB, hEC, lEA, lEB, lEC, hEv⟩ :=
        ih (n.tdiv 2) (evens a (n.tdiv 2).toNat) (evens b (n.tdiv 2).toNat)
          (evens c (n.tdiv 2).toNat) (by omega) (by rw [evens_length])
          (by rw [evens_length, evens_length]) (by rw [evens_length, evens_length])
          (by
            intro i hi
            rw [evens_length] at hi
            rw [nth_evens _ _ i hi, nth_evens _ _ i hi, nth_evens _ _ i hi]
            exact hv _ (by omega))
      obtain ⟨OA, OB, OC, hOA, hOB, hOC, lOA, lOB, lOC, hOv⟩ :=
        ih (n.tdiv 2) (odds a (n.tdiv 2).toNat) (odds b (n.tdiv 2).toNat)
          (odds c (n.tdiv 2).toNat) (by omega) (by rw [odds_length])
          (by rw [odds_length, odds_length]) (by rw [odds_length, odds_length])
          (by
            intro i hi
            rw [odds_length] at hi
            rw [nth_odds _ _ i hi, nth_odds _ _ i hi, nth_odds _ _ i hi]
            exact hv _ (by omega))
      rw [evens_length] at lEA lEB lEC hEv
      rw [odds_length] at lOA lOB lOC hOv
      obtain ⟨A, hA, lA, vA⟩ := fft_step cos sin PI a n hn2 ha EA OA hEA hOA lEA lOA
      obtain ⟨B, hB, lB, vB⟩ := fft_step cos sin PI b n hn2 (by omega) EB OB hEB hOB lEB lOB
      obtain ⟨C, hC, lC, vC⟩ := fft_step cos sin PI c n hn2 (by omega) EC OC hEC hOC lEC lOC
      refine ⟨A, B, C, hA, hB, hC, lA, by omega, by omega, ?_⟩
      intro j hj
      rw [vA j, vB j, vC j]
      unfold combinedAt
      by_cases c1 : j < (n.tdiv 2).toNat
      · rw [if_pos c1, if_pos c1, if_pos c1, hEv j c1, hOv j c1, butterfly_add_lin]
      · rw [if_neg c1, if_neg c1, if_neg c1]
        by_cases c2 : (n.tdiv 2).toNat ≤ j ∧ j < (n.tdiv 2).toNat + (n.tdiv 2).toNat
        · have c3 : j - (n.tdiv 2).toNat < (n.tdiv 2).toNat := by omega
          rw [if_pos c2, if_pos c2, if_pos c2, hEv _ c3, hOv _ c3, butterfly_sub_lin]
        · rw [if_neg c2, if_neg c2, if_neg c2]
          exact hv j hj

/-- C4: linearity.  For all sequences `a`, `b` of equal length `N`, `fft(a + b)` is the
componentwise sum of `fft(a)` and `fft(b)` (all three calls return), in exact arithmetic over any
field and for any length `N`. -/
theorem fft_linear [Field R] (cos sin : R → R) (PI : R) (a b : List (complex_t R))
    (hab : a.length = b.length) :
    ∃ A B, fft cos sin PI a (a.length : ℤ) = some A ∧ fft cos sin PI b (a.length : ℤ) = some B ∧
      fft cos sin PI (seqAdd a b) (a.length : ℤ) = some (seqAdd A B) := by
  have hl : (seqAdd a b).length = a.length := by
    unfold seqAdd; rw [List.length_zipWith]; omega
  obtain ⟨A, B, C, hA, hB, hC, lA, lB, lC, hv⟩ :=
    fft_linear_core cos sin PI a.length (a.length : ℤ) a b (seqAdd a b)
      (by rw [Int.toNat_natCast]) (by rw [Int.toNat_natCast]) hab.symm hl
      (fun j hj => nth_seqAdd a b j hj (by omega))
  refine ⟨A, B, hA, hB, ?_⟩
  rw [hC]
  congr 1
  apply list_ext_nth
  · unfold seqAdd; rw [List.length_zipWith]; omega
  · intro j hj
    rw [hv j (by omega), nth_seqAdd A B j (by omega) (by omega)]

/-- Witness of `fft_linear` at two sequences of length 2 over the reals. -/
theorem fft_linear_witness :
    ([⟨1, 0⟩, ⟨0, 1⟩] : List (complex_t ℝ)).length =
      ([⟨2, 3⟩, ⟨5, 7⟩] : List (complex_t ℝ)).length ∧
    ∃ A B, fft Real.cos Real.sin Real.pi [⟨1, 0⟩, ⟨0, 1⟩]
        (([⟨1, 0⟩, ⟨0, 1⟩] : List (complex_t ℝ)).length : ℤ) = some A ∧
      fft Real.cos Real.sin Real.pi [⟨2, 3⟩, ⟨5, 7⟩]
        (([⟨1, 0⟩, ⟨0, 1⟩] : List (complex_t ℝ)).length : ℤ) = some B ∧
      fft Real.cos Real.sin Real.pi (seqAdd [⟨1, 0⟩, ⟨0, 1⟩] [⟨2, 3⟩, ⟨5, 7⟩])
        (([⟨1, 0⟩, ⟨0, 1⟩] : List (complex_t ℝ)).length : ℤ) = some (seqAdd A B) :=
  ⟨rfl, fft_linear Real.cos Real.sin Real.pi [⟨1, 0⟩, ⟨0, 1⟩] [⟨2, 3⟩, ⟨5, 7⟩] rfl⟩

theorem fft_two [Field R] (cos sin : R → R) (PI : R) (x y : complex_t R) :
    fft cos sin PI [x, y] 2 =
      some [cadd x (cmul (twiddle cos sin PI 2 0) y), csub x (cmul (twiddle cos sin PI 2 0) y)] := by
  have t2 : (2 : ℤ).tdiv 2 = 1 := rfl
  have r1 : List.range 1 = [0] := rfl
  rw [fft, dif_neg (by norm_num), t2]
  simp only [Int.toNat_one, r1, List.mapM_cons, List.mapM_nil]
  simp [fft_le_one, combineStep, store, cadd, csub, cmul, twiddle, t2]

theorem fft_four [Field R] (cos sin : R → R) (PI : R) (x0 x1 x2 x3 : complex_t R) :
    fft cos sin PI [x0, x1, x2, x3] 4 =
      some [cadd (cadd x0 (cmul (twiddle cos sin PI 2 0) x2))
              (cmul (twiddle cos sin PI 4 0) (cadd x1 (cmul (twiddle cos sin PI 2 0) x3))),
            cadd (csub x0 (cmul (twiddle cos sin PI 2 0) x2))
              (cmul (twiddle cos sin PI 4 1) (csub x1 (cmul (twiddle cos sin PI 2 0) x3))),
            csub (cadd x0 (cmul (twiddle cos sin PI 2 0) x2))
              (cmul (twiddle cos sin PI 4 0) (cadd x1 (cmul (twiddle cos sin PI 2 0) x3))),
            csub (csub x0 (cmul (twiddle cos sin PI 2 0) x2))
              (cmul (twiddle cos sin PI 4 1) (csub x1 (cmul (twiddle cos sin PI 2 0) x3)))] := by
  have t4 : (4 : ℤ).tdiv 2 = 2 := rfl
  have r2 : List.range 2 = [0, 1] := rfl
  have n2 : (2 : ℤ).toNat = 2 := rfl
  rw [fft, dif_neg (by norm_num), t4]
  simp only [n2, r2, List.mapM_cons, List.mapM_nil]
  simp [fft_two, combineStep, store, cadd, csub, cmul, twiddle, t4]

theorem twiddle_zero (n : ℤ) : twiddle Real.cos Real.sin Real.pi n 0 = ⟨1, 0⟩ := by
  simp [twiddle]

theorem twiddle_four_one : twiddle Real.cos Real.sin Real.pi 4 1 = ⟨0, -1⟩ := by
  have e : -2 * Real.pi * ((1 : ℕ) : ℝ) / ((4 : ℤ) : ℝ) = -(Real.pi / 2) := by
    push_cast; ring
  unfold twiddle
  rw [e, Real.cos_neg, Real.sin_neg, Real.cos_pi_div_two, Real.sin_pi_div_two]

/-- C7: impulse case.  `fft` of the length-4 sequence `[(1,0),(0,0),(0,0),(0,0)]` is
`[(1,0),(1,0),(1,0),(1,0)]`, exactly over real arithmetic. -/
theorem fft_impulse :
    fft Real.cos Real.sin Real.pi [⟨1, 0⟩, ⟨0, 0⟩, ⟨0, 0⟩, ⟨0, 0⟩] 4 =
      some [⟨1, 0⟩, ⟨1, 0⟩, ⟨1, 0⟩, ⟨1, 0⟩] := by
  rw [fft_four, twiddle_zero, twiddle_zero, twiddle_four_one]
  simp [cadd, csub, cmul]

/-- C8: constant case.  `fft` of the length-4 sequence `[(1,0),(1,0),(1,0),(1,0)]` is
`[(4,0),(0,0),(0,0),(0,0)]`, exactly over real arithmetic. -/
theorem fft_constant :
    fft Real.cos Real.sin Real.pi [⟨1, 0⟩, ⟨1, 0⟩, ⟨1, 0⟩, ⟨1, 0⟩] 4 =
      some [⟨4, 0⟩, ⟨0, 0⟩, ⟨0, 0⟩, ⟨0, 0⟩] := by
  rw [fft_four, twiddle_zero, twiddle_zero, twiddle_four_one]
  simp [cadd, csub, cmul]
  norm_num

theorem six_not_pow_two : ¬ ∃ m : ℕ, 6 = 2 ^ m := by
  rintro ⟨m, hm⟩
  rcases lt_or_le m 3 with h | h
  · interval_cases m <;> simp at hm
  · have h8 := Nat.pow_le_pow_right (by norm_num : 0 < 2) h
    omega

/-- C5 (as the code behaves): `fft` has no size check and no error value.  For a sequence whose
length is zero or not a power of two the call returns normally, leaving a buffer of the same
length. -/
theorem fft_no_size_check [Field R] (cos sin : R → R) (PI : R) (s : List (complex_t R))
    (_h : s.length = 0 ∨ ¬ ∃ m : ℕ, s.length = 2 ^ m) :
    ∃ out, fft cos sin PI s (s.length : ℤ) = some out ∧ out.length = s.length :=
  fft_total cos sin PI s.length (s.length : ℤ) s (by rw [Int.toNat_natCast])
    (by rw [Int.toNat_natCast])

/-- Witness of `fft_no_size_check` at a sequence of length 6. -/
theorem fft_no_size_check_witness :
    ((([⟨1, 0⟩, ⟨2, 0⟩, ⟨3, 0⟩, ⟨4, 0⟩, ⟨5, 0⟩, ⟨6, 0⟩] : List (complex_t ℝ)).length = 0 ∨
      ¬ ∃ m : ℕ, ([⟨1, 0⟩, ⟨2, 0⟩, ⟨3, 0⟩, ⟨4, 0⟩, ⟨5, 0⟩, ⟨6, 0⟩] :
        List (complex_t ℝ)).length = 2 ^ m)) ∧
    ∃ out, fft Real.cos Real.sin Real.pi [⟨1, 0⟩, ⟨2, 0⟩, ⟨3, 0⟩, ⟨4, 0⟩, ⟨5, 0⟩, ⟨6, 0⟩]
        (([⟨1, 0⟩, ⟨2, 0⟩, ⟨3, 0⟩, ⟨4, 0⟩, ⟨5, 0⟩, ⟨6, 0⟩] : List (complex_t ℝ)).length : ℤ) =
          some out ∧
      out.length =
        ([⟨1, 0⟩, ⟨2, 0⟩, ⟨3, 0⟩, ⟨4, 0⟩, ⟨5, 0⟩, ⟨6, 0⟩] : List (complex_t ℝ)).length :=
  ⟨Or.inr six_not_pow_two,
    fft_no_size_check Real.cos Real.sin Real.pi [⟨1, 0⟩, ⟨2, 0⟩, ⟨3, 0⟩, ⟨4, 0⟩, ⟨5, 0⟩, ⟨6, 0⟩]
      (Or.inr six_not_pow_two)⟩

/-- C5 fails as stated: on a length-6 input (6 is not a power of two) `fft(a, 6)` does not fail;
it returns a buffer of 6 samples. -/
theorem fft_length_six_returns :
    (¬ ∃ m : ℕ, 6 = 2 ^ m) ∧
    ∃ out, fft Real.cos Real.sin Real.pi
        [⟨1, 0⟩, ⟨2, 0⟩, ⟨3, 0⟩, ⟨4, 0⟩, ⟨5, 0⟩, ⟨6, 0⟩] 6 = some out ∧ out.length = 6 :=
  ⟨six_not_pow_two,
    fft_total Real.cos Real.sin Real.pi 6 6 [⟨1, 0⟩, ⟨2, 0⟩, ⟨3, 0⟩, ⟨4, 0⟩, ⟨5, 0⟩, ⟨6, 0⟩]
      (by decide) (by decide)⟩

/-- C6: for every power of two `N = 2^m` in `{1, 2, 4, ..., 1024}` (that is `m ≤ 10`) and every
input of length `N`, `fft` returns a sequence of length exactly `N`. -/
theorem fft_length_pow_two [Field R] (cos sin : R → R) (PI : R) (s : List (complex_t R))
    (m : ℕ) (_hm : m ≤ 10) (hs : s.length = 2 ^ m) :
    ∃ out, fft cos sin PI s ((2 ^ m : ℕ) : ℤ) = some out ∧ out.length = 2 ^ m := by
  obtain ⟨out, h1, h2⟩ := fft_total cos sin PI (2 ^ m) ((2 ^ m : ℕ) : ℤ) s
    (by rw [Int.toNat_natCast]) (by rw [Int.toNat_natCast, hs])
  exact ⟨out, h1, by rw [h2, hs]⟩

/-- Witness of `fft_length_pow_two` at a sequence of length 4. -/
theorem fft_length_pow_two_witness :
    (2 : ℕ) ≤ 10 ∧ ([⟨1, 0⟩, ⟨0, 1⟩, ⟨2, 0⟩, ⟨0, 3⟩] : List (complex_t ℝ)).length = 2 ^ 2 ∧
    ∃ out, fft Real.cos Real.sin Real.pi [⟨1, 0⟩, ⟨0, 1⟩, ⟨2, 0⟩, ⟨0, 3⟩]
        ((2 ^ 2 : ℕ) : ℤ) = some out ∧ out.length = 2 ^ 2 :=
  ⟨by decide, rfl,
    fft_length_pow_two Real.cos Real.sin Real.pi [⟨1, 0⟩, ⟨0, 1⟩, ⟨2, 0⟩, ⟨0, 3⟩] 2
      (by decide) rfl⟩

theorem nth_replicate_zero [Field R] (N j : ℕ) :
    nth (List.replicate N (⟨0, 0⟩ : complex_t R)) j = ⟨0, 0⟩ := by
  unfold nth
  rw [List.getD_eq_getElem?_getD, List.getElem?_replicate]
  by_cases h : j < N
  · simp [h]
  · simp [h]

/-- C9: zero input.  For every power-of-two length `N = 2^m`, `fft` of the all-zero sequence of
length `N` is the all-zero sequence of length `N`. -/
theorem fft_zero [Field R] (cos sin : R → R) (PI : R) (m : ℕ) :
    fft cos sin PI (List.replicate (2 ^ m) (⟨0, 0⟩ : complex_t R)) ((2 ^ m : ℕ) : ℤ) =
      some (List.replicate (2 ^ m) ⟨0, 0⟩) := by
  have hl : (List.replicate (2 ^ m) (⟨0, 0⟩ : complex_t R)).length = 2 ^ m :=
    List.length_replicate _ _
  obtain ⟨A, B, C, hA, hB, hC, lA, -, -, hv⟩ :=
    fft_linear_core cos sin PI (2 ^ m) ((2 ^ m : ℕ) : ℤ)
      (List.replicate (2 ^ m) (⟨0, 0⟩ : complex_t R)) (List.replicate (2 ^ m) ⟨0, 0⟩)
      (List.replicate (2 ^ m) ⟨0, 0⟩)
      (by rw [Int.toNat_natCast]) (by rw [Int.toNat_natCast, hl]) rfl rfl
      (fun j _ => by simp [nth_replicate_zero, cadd])
  rw [hA] at hB hC
  have hB2 : B = A := (Option.some.inj hB).symm
  have hC2 : C = A := (Option.some.inj hC).symm
  subst hB2 hC2
  rw [hA]
  congr 1
  apply list_ext_nth
  · rw [lA]
  · intro k hk
    have h := hv k (by omega)
    rw [nth_replicate_zero]
    generalize nth C k = z at h
    cases z with
    | mk x y =>
      simp only [cadd, complex_t.mk.injEq] at h
      have hx : x = 0 := by have := h.1; exact (self_eq_add_left.mp this)
      have hy : y = 0 := by have := h.2; exact (self_eq_add_left.mp this)
      rw [hx, hy]

/-- C10: base case.  For every sequence of length `N ≤ 1`, `fft` returns the sequence
unchanged. -/
theorem fft_base_case [Field R] (cos sin : R → R) (PI : R) (s : List (complex_t R))
    (hs : s.length ≤ 1) : fft cos sin PI s (s.length : ℤ) = some s :=
  fft_le_one cos sin PI s (s.length : ℤ) (by omega)

/-- Witness of `fft_base_case` at a sequence of length 1. -/
theorem fft_base_case_witness :
    ([⟨3, 4⟩] : List (complex_t ℝ)).length ≤ 1 ∧
    fft Real.cos Real.sin Real.pi [⟨3, 4⟩] (([⟨3, 4⟩] : List (complex_t ℝ)).length : ℤ) =
      some [⟨3, 4⟩] :=
  ⟨by decide, fft_base_case Real.cos Real.sin Real.pi [⟨3, 4⟩] (by decide)⟩


/-! ## One level of the recursion -/

theorem natCast_tdiv_two (L : ℕ) : ((L : ℤ)).tdiv 2 = ((L / 2 : ℕ) : ℤ) := by
  have h := Int.ofNat_tdiv L 2
  simpa using h.symm

theorem fft_level [Field R] (cos sin : R → R) (PI : R) (a : List (complex_t R))
    (hn : 2 ≤ a.length) :
    ∃ E O out,
      fft cos sin PI (evens a (a.length / 2)) ((a.length / 2 : ℕ) : ℤ) = some E ∧
      fft cos sin PI (odds a (a.length / 2)) ((a.length / 2 : ℕ) : ℤ) = some O ∧
      E.length = a.length / 2 ∧ O.length = a.length / 2 ∧
      fft cos sin PI a (a.length : ℤ) = some out ∧ out.length = a.length ∧
      ∀ j, nth out j = combinedAt cos sin PI (a.length : ℤ) E O a (a.length / 2) j := by
  have hd := natCast_tdiv_two a.length
  have hdn : (((a.length : ℤ)).tdiv 2).toNat = a.length / 2 := by
    rw [hd, Int.toNat_natCast]
  obtain ⟨E, hE, hEl⟩ := fft_total cos sin PI (a.length / 2) ((a.length / 2 : ℕ) : ℤ)
    (evens a (a.length / 2)) (by rw [Int.toNat_natCast])
    (by rw [Int.toNat_natCast, evens_length])
  obtain ⟨O, hO, hOl⟩ := fft_total cos sin PI (a.length / 2) ((a.length / 2 : ℕ) : ℤ)
    (odds a (a.length / 2)) (by rw [Int.toNat_natCast])
    (by rw [Int.toNat_natCast, odds_length])
  rw [evens_length] at hEl
  rw [odds_length] at hOl
  obtain ⟨out, h1, h2, h3⟩ := fft_step cos sin PI a (a.length : ℤ) (by omega)
    (by rw [Int.toNat_natCast]) E O (by rw [hdn, hd]; exact hE) (by rw [hdn, hd]; exact hO)
    (by rw [hdn]; exact hEl) (by rw [hdn]; exact hOl)
  rw [hdn] at h3
  exact ⟨E, O, out, hE, hO, hEl, hOl, h1, h2, h3⟩

theorem combinedAt_lo [Field R] (cos sin : R → R) (PI : R) (n : ℤ) (E O a : List (complex_t R))
    (h k : ℕ) (hk : k < h) :
    combinedAt cos sin PI n E O a h k =
      cadd (nth E k) (cmul (twiddle cos sin PI n k) (nth O k)) := by
  unfold combinedAt
  rw [if_pos hk]

theorem combinedAt_hi [Field R] (cos sin : R → R) (PI : R) (n : ℤ) (E O a : List (complex_t R))
    (h k : ℕ) (hh : (n.tdiv 2).toNat = h) (hk : k < h) :
    combinedAt cos sin PI n E O a h (k + h) =
      csub (nth E k) (cmul (twiddle cos sin PI n k) (nth O k)) := by
  unfold combinedAt
  have c1 : ¬ k + h < h := by omega
  have c2 : (n.tdiv 2).toNat ≤ k + h ∧ k + h < (n.tdiv 2).toNat + h := by omega
  have c3 : k + h - (n.tdiv 2).toNat = k := by omega
  rw [if_neg c1, if_pos c2, c3]

theorem combinedAt_rest [Field R] (cos sin : R → R) (PI : R) (n : ℤ)
    (E O a : List (complex_t R)) (h j : ℕ) (hh : (n.tdiv 2).toNat = h) (hj : h + h ≤ j) :
    combinedAt cos sin PI n E O a h j = nth a j := by
  unfold combinedAt
  have c1 : ¬ j < h := by omega
  have c2 : ¬ ((n.tdiv 2).toNat ≤ j ∧ j < (n.tdiv 2).toNat + h) := by omega
  rw [if_neg c1, if_neg c2]

/-- C13: split and butterfly combine.  For a sequence `a` of even length `n ≥ 2`, with
`E = fft([a[0], a[2], ...])` and `O = fft([a[1], a[3], ...])`, each of length `n/2`, and
`w = (cos(-2πk/n), sin(-2πk/n))`: `fft(a)[k] = E[k] + w·O[k]` and
`fft(a)[k + n/2] = E[k] - w·O[k]` for every `k < n/2`. -/
theorem fft_split_combine [Field R] (cos sin : R → R) (PI : R) (a : List (complex_t R))
    (hn : 2 ≤ a.length) (_hev : a.length % 2 = 0) :
    ∃ E O out,
      fft cos sin PI (evens a (a.length / 2)) ((a.length / 2 : ℕ) : ℤ) = some E ∧
      fft cos sin PI (odds a (a.length / 2)) ((a.length / 2 : ℕ) : ℤ) = some O ∧
      E.length = a.length / 2 ∧ O.length = a.length / 2 ∧
      fft cos sin PI a (a.length : ℤ) = some out ∧
      ∀ k, k < a.length / 2 →
        nth out k = cadd (nth E k)
          (cmul ⟨cos (-2 * PI * (k : R) / ((a.length : ℤ) : R)),
                 sin (-2 * PI * (k : R) / ((a.length : ℤ) : R))⟩ (nth O k)) ∧
        nth out (k + a.length / 2) = csub (nth E k)
          (cmul ⟨cos (-2 * PI * (k : R) / ((a.length : ℤ) : R)),
                 sin (-2 * PI * (k : R) / ((a.length : ℤ) : R))⟩ (nth O k)) := by
  obtain ⟨E, O, out, hE, hO, hEl, hOl, h1, -, h3⟩ := fft_level cos sin PI a hn
  have hdn : (((a.length : ℤ)).tdiv 2).toNat = a.length / 2 := by
    rw [natCast_tdiv_two, Int.toNat_natCast]
  refine ⟨E, O, out, hE, hO, hEl, hOl, h1, ?_⟩
  intro k hk
  constructor
  · rw [h3 k, combinedAt_lo cos sin PI _ E O a _ k hk]
    rfl
  · rw [h3 (k + a.length / 2), combinedAt_hi cos sin PI _ E O a _ k hdn hk]
    rfl

/-- Witness of `fft_split_combine` at a sequence of length 4 over the reals. -/
theorem fft_split_combine_witness :
    2 ≤ ([⟨1, 0⟩, ⟨0, 1⟩, ⟨2, 0⟩, ⟨0, 3⟩] : List (complex_t ℝ)).length ∧
    ([⟨1, 0⟩, ⟨0, 1⟩, ⟨2, 0⟩, ⟨0, 3⟩] : List (complex_t ℝ)).length % 2 = 0 ∧
    ∃ E O out,
      fft Real.cos Real.sin Real.pi (evens [⟨1, 0⟩, ⟨0, 1⟩, ⟨2, 0⟩, ⟨0, 3⟩]
        (([⟨1, 0⟩, ⟨0, 1⟩, ⟨2, 0⟩, ⟨0, 3⟩] : List (complex_t ℝ)).length / 2))
        ((([⟨1, 0⟩, ⟨0, 1⟩, ⟨2, 0⟩, ⟨0, 3⟩] : List (complex_t ℝ)).length / 2 : ℕ) : ℤ) =
          some E ∧
      fft Real.cos Real.sin Real.pi (odds [⟨1, 0⟩, ⟨0, 1⟩, ⟨2, 0⟩, ⟨0, 3⟩]
        (([⟨1, 0⟩, ⟨0, 1⟩, ⟨2, 0⟩, ⟨0, 3⟩] : List (complex_t ℝ)).length / 2))
        ((([⟨1, 0⟩, ⟨0, 1⟩, ⟨2, 0⟩, ⟨0, 3⟩] : List (complex_t ℝ)).length / 2 : ℕ) : ℤ) =
          some O ∧
      E.length = ([⟨1, 0⟩, ⟨0, 1⟩, ⟨2, 0⟩, ⟨0, 3⟩] : List (complex_t ℝ)).length / 2 ∧
      O.length = ([⟨1, 0⟩, ⟨0, 1⟩, ⟨2, 0⟩, ⟨0, 3⟩] : List (complex_t ℝ)).length / 2 ∧
      fft Real.cos Real.sin Real.pi [⟨1, 0⟩, ⟨0, 1⟩, ⟨2, 0⟩, ⟨0, 3⟩]
        (([⟨1, 0⟩, ⟨0, 1⟩, ⟨2, 0⟩, ⟨0, 3⟩] : List (complex_t ℝ)).length : ℤ) = some out ∧
      ∀ k, k < ([⟨1, 0⟩, ⟨0, 1⟩, ⟨2, 0⟩, ⟨0, 3⟩] : List (complex_t ℝ)).length / 2 →
        nth out k = cadd (nth E k)
          (cmul ⟨Real.cos (-2 * Real.pi * (k : ℝ) /
                    ((([⟨1, 0⟩, ⟨0, 1⟩, ⟨2, 0⟩, ⟨0, 3⟩] : List (complex_t ℝ)).length : ℤ) : ℝ)),
                 Real.sin (-2 * Real.pi * (k : ℝ) /
                    ((([⟨1, 0⟩, ⟨0, 1⟩, ⟨2, 0⟩, ⟨0, 3⟩] : List (complex_t ℝ)).length : ℤ) : ℝ))⟩
            (nth O k)) ∧
        nth out (k + ([⟨1, 0⟩, ⟨0, 1⟩, ⟨2, 0⟩, ⟨0, 3⟩] : List (complex_t ℝ)).length / 2) =
          csub (nth E k)
          (cmul ⟨Real.cos (-2 * Real.pi * (k : ℝ) /
                    ((([⟨1, 0⟩, ⟨0, 1⟩, ⟨2, 0⟩, ⟨0, 3⟩] : List (complex_t ℝ)).length : ℤ) : ℝ)),
                 Real.sin (-2 * Real.pi * (k : ℝ) /
                    ((([⟨1, 0⟩, ⟨0, 1⟩, ⟨2, 0⟩, ⟨0, 3⟩] : List (complex_t ℝ)).length : ℤ) : ℝ))⟩
            (nth O k)) :=
  ⟨by decide, by decide,
    fft_split_combine Real.cos Real.sin Real.pi [⟨1, 0⟩, ⟨0, 1⟩, ⟨2, 0⟩, ⟨0, 3⟩]
      (by decide) (by decide)⟩

/-- C15: index safety.  For every integer `n` and every buffer `a` holding at least `n`
elements, `fft(a, n)` returns normally: no read or write of the bounds-checked embedding, at
any recursion level, falls outside its buffer, and the buffer keeps its length.  The indices
used at the top level are below `n`: `2i + 1 < n` and `i + n/2 < n` for every `i < n/2`. -/
theorem fft_index_safe [Field R] (cos sin : R → R) (PI : R) (n : ℤ) (a : List (complex_t R))
    (ha : n ≤ (a.length : ℤ)) :
    (∃ out, fft cos sin PI a n = some out ∧ out.length = a.length) ∧
    ∀ i : ℕ, (i : ℤ) < n.tdiv 2 →
      (i : ℤ) * 2 + 1 < n ∧ (i : ℤ) + n.tdiv 2 < n ∧ i * 2 + 1 < a.length ∧
        i + (n.tdiv 2).toNat < a.length := by
  refine ⟨fft_total cos sin PI n.toNat n a (le_refl _) (by omega), ?_⟩
  intro i hi
  have hn : 2 ≤ n := by
    by_contra hc
    have h1 : n.tdiv 2 ≤ 0 := by
      rcases le_or_lt 0 n with h0 | h0
      · rw [Int.tdiv_eq_ediv h0 (by norm_num)]; omega
      · have e : n.tdiv 2 = -((-n).tdiv 2) := by rw [Int.neg_tdiv, neg_neg]
        have h5 : 0 ≤ (-n).tdiv 2 := Int.tdiv_nonneg (by omega) (by norm_num)
        omega
    omega
  have h3 : n.tdiv 2 = n / 2 := Int.tdiv_eq_ediv (by omega) (by norm_num)
  rw [h3] at hi ⊢
  omega

/-- Witness of `fft_index_safe` at `n = 5` on a buffer of 6 samples. -/
theorem fft_index_safe_witness :
    (5 : ℤ) ≤ ((([⟨1, 0⟩, ⟨0, 1⟩, ⟨2, 0⟩, ⟨0, 3⟩, ⟨4, 0⟩, ⟨0, 5⟩] :
      List (complex_t ℝ)).length : ℕ) : ℤ) ∧
    ((∃ out, fft Real.cos Real.sin Real.pi
        [⟨1, 0⟩, ⟨0, 1⟩, ⟨2, 0⟩, ⟨0, 3⟩, ⟨4, 0⟩, ⟨0, 5⟩] 5 = some out ∧
      out.length = ([⟨1, 0⟩, ⟨0, 1⟩, ⟨2, 0⟩, ⟨0, 3⟩, ⟨4, 0⟩, ⟨0, 5⟩] :
        List (complex_t ℝ)).length) ∧
    ∀ i : ℕ, (i : ℤ) < (5 : ℤ).tdiv 2 →
      (i : ℤ) * 2 + 1 < 5 ∧ (i : ℤ) + (5 : ℤ).tdiv 2 < 5 ∧
        i * 2 + 1 < ([⟨1, 0⟩, ⟨0, 1⟩, ⟨2, 0⟩, ⟨0, 3⟩, ⟨4, 0⟩, ⟨0, 5⟩] :
          List (complex_t ℝ)).length ∧
        i + ((5 : ℤ).tdiv 2).toNat < ([⟨1, 0⟩, ⟨0, 1⟩, ⟨2, 0⟩, ⟨0, 3⟩, ⟨4, 0⟩, ⟨0, 5⟩] :
          List (complex_t ℝ)).length) :=
  ⟨by decide,
    fft_index_safe Real.cos Real.sin Real.pi 5
      [⟨1, 0⟩, ⟨0, 1⟩, ⟨2, 0⟩, ⟨0, 3⟩, ⟨4, 0⟩, ⟨0, 5⟩] (by decide)⟩

theorem evens_set_last [Field R] (a : List (complex_t R)) (h p : ℕ) (v : complex_t R)
    (hp : 2 * h ≤ p) : evens (a.set p v) h = evens a h := by
  unfold evens
  apply List.map_congr_left
  intro i hi
  have hi2 : i < h := List.mem_range.mp hi
  unfold nth
  rw [List.getD_eq_getElem?_getD, List.getD_eq_getElem?_getD, List.getElem?_set]
  have : ¬ p = i * 2 := by omega
  rw [if_neg this]

theorem odds_set_last [Field R] (a : List (complex_t R)) (h p : ℕ) (v : complex_t R)
    (hp : 2 * h ≤ p) : odds (a.set p v) h = odds a h := by
  unfold odds
  apply List.map_congr_left
  intro i hi
  have hi2 : i < h := List.mem_range.mp hi
  unfold nth
  rw [List.getD_eq_getElem?_getD, List.getD_eq_getElem?_getD, List.getElem?_set]
  have : ¬ p = i * 2 + 1 := by omega
  rw [if_neg this]

/-- C16: odd sizes are not rejected.  For a sequence `a` of odd length `n ≥ 3`, `fft(a, n)`
returns normally and leaves `a[n-1]` unchanged; with `h = n/2` (rounded down), `E` and `O` the
transforms of the first `h` even-indexed and odd-indexed samples, the other outputs are
`out[k] = E[k] + w·O[k]` and `out[k + h] = E[k] - w·O[k]` for `k < h`; and they do not depend on
`a[n-1]`: replacing it by any `v` leaves the first `n-1` outputs as they were. -/
theorem fft_odd_length [Field R] (cos sin : R → R) (PI : R) (a : List (complex_t R))
    (hn : 3 ≤ a.length) (hodd : a.length % 2 = 1) :
    ∃ E O out,
      fft cos sin PI (evens a (a.length / 2)) ((a.length / 2 : ℕ) : ℤ) = some E ∧
      fft cos sin PI (odds a (a.length / 2)) ((a.length / 2 : ℕ) : ℤ) = some O ∧
      fft cos sin PI a (a.length : ℤ) = some out ∧ out.length = a.length ∧
      nth out (a.length - 1) = nth a (a.length - 1) ∧
      (∀ k, k < a.length / 2 →
        nth out k = cadd (nth E k) (cmul (twiddle cos sin PI (a.length : ℤ) k) (nth O k)) ∧
        nth out (k + a.length / 2) =
          csub (nth E k) (cmul (twiddle cos sin PI (a.length : ℤ) k) (nth O k))) ∧
      ∀ v : complex_t R, ∃ out2,
        fft cos sin PI (a.set (a.length - 1) v) (a.length : ℤ) = some out2 ∧
        nth out2 (a.length - 1) = v ∧
        ∀ j, j < a.length - 1 → nth out2 j = nth out j := by
  obtain ⟨E, O, out, hE, hO, hEl, hOl, h1, h2, h3⟩ := fft_level cos sin PI a (by omega)
  have hdn : (((a.length : ℤ)).tdiv 2).toNat = a.length / 2 := by
    rw [natCast_tdiv_two, Int.toNat_natCast]
  have hlast : a.length / 2 + a.length / 2 = a.length - 1 := by omega
  refine ⟨E, O, out, hE, hO, h1, h2, ?_, ?_, ?_⟩
  · rw [h3, combinedAt_rest cos sin PI _ E O a _ _ hdn (by omega)]
  · intro k hk
    constructor
    · rw [h3 k, combinedAt_lo cos sin PI _ E O a _ k hk]
    · rw [h3 (k + a.length / 2), combinedAt_hi cos sin PI _ E O a _ k hdn hk]
  · intro v
    have hl : (a.set (a.length - 1) v).length = a.length := List.length_set _ _ _
    obtain ⟨E2, O2, out2, hE2, hO2, -, -, g1, -, g3⟩ :=
      fft_level cos sin PI (a.set (a.length - 1) v) (by rw [hl]; omega)
    rw [hl] at hE2 hO2 g1 g3
    rw [evens_set_last a _ _ v (by omega), hE] at hE2
    rw [odds_set_last a _ _ v (by omega), hO] at hO2
    have eE : E2 = E := (Option.some.inj hE2).symm
    have eO : O2 = O := (Option.some.inj hO2).symm
    subst eE eO
    refine ⟨out2, g1, ?_, ?_⟩
    · rw [g3, combinedAt_rest cos sin PI _ E2 O2 _ _ _ hdn (by omega),
        nth_set a _ _ v (by omega), if_pos rfl]
    · intro j hj
      rw [g3 j, h3 j]
      unfold combinedAt
      by_cases c1 : j < a.length / 2
      · rw [if_pos c1, if_pos c1]
      · have c2 : ((a.length : ℤ).tdiv 2).toNat ≤ j ∧
            j < ((a.length : ℤ).tdiv 2).toNat + a.length / 2 := by omega
        rw [if_neg c1, if_neg c1, if_pos c2, if_pos c2]

/-- Witness of `fft_odd_length` at a sequence of length 3 over the reals. -/
theorem fft_odd_length_witness :
    3 ≤ ([⟨1, 0⟩, ⟨0, 1⟩, ⟨2, 5⟩] : List (complex_t ℝ)).length ∧
    ([⟨1, 0⟩, ⟨0, 1⟩, ⟨2, 5⟩] : List (complex_t ℝ)).length % 2 = 1 ∧
    ∃ E O out,
      fft Real.cos Real.sin Real.pi (evens [⟨1, 0⟩, ⟨0, 1⟩, ⟨2, 5⟩]
        (([⟨1, 0⟩, ⟨0, 1⟩, ⟨2, 5⟩] : List (complex_t ℝ)).length / 2))
        ((([⟨1, 0⟩, ⟨0, 1⟩, ⟨2, 5⟩] : List (complex_t ℝ)).length / 2 : ℕ) : ℤ) = some E ∧
      fft Real.cos Real.sin Real.pi (odds [⟨1, 0⟩, ⟨0, 1⟩, ⟨2, 5⟩]
        (([⟨1, 0⟩, ⟨0, 1⟩, ⟨2, 5⟩] : List (complex_t ℝ)).length / 2))
        ((([⟨1, 0⟩, ⟨0, 1⟩, ⟨2, 5⟩] : List (complex_t ℝ)).length / 2 : ℕ) : ℤ) = some O ∧
      fft Real.cos Real.sin Real.pi [⟨1, 0⟩, ⟨0, 1⟩, ⟨2, 5⟩]
        (([⟨1, 0⟩, ⟨0, 1⟩, ⟨2, 5⟩] : List (complex_t ℝ)).length : ℤ) = some out ∧
      out.length = ([⟨1, 0⟩, ⟨0, 1⟩, ⟨2, 5⟩] : List (complex_t ℝ)).length ∧
      nth out (([⟨1, 0⟩, ⟨0, 1⟩, ⟨2, 5⟩] : List (complex_t ℝ)).length - 1) =
        nth [⟨1, 0⟩, ⟨0, 1⟩, ⟨2, 5⟩]
          (([⟨1, 0⟩, ⟨0, 1⟩, ⟨2, 5⟩] : List (complex_t ℝ)).length - 1) ∧
      (∀ k, k < ([⟨1, 0⟩, ⟨0, 1⟩, ⟨2, 5⟩] : List (complex_t ℝ)).length / 2 →
        nth out k = cadd (nth E k) (cmul (twiddle Real.cos Real.sin Real.pi
          (([⟨1, 0⟩, ⟨0, 1⟩, ⟨2, 5⟩] : List (complex_t ℝ)).length : ℤ) k) (nth O k)) ∧
        nth out (k + ([⟨1, 0⟩, ⟨0, 1⟩, ⟨2, 5⟩] : List (complex_t ℝ)).length / 2) =
          csub (nth E k) (cmul (twiddle Real.cos Real.sin Real.pi
            (([⟨1, 0⟩, ⟨0, 1⟩, ⟨2, 5⟩] : List (complex_t ℝ)).length : ℤ) k) (nth O k))) ∧
      ∀ v : complex_t ℝ, ∃ out2,
        fft Real.cos Real.sin Real.pi
          (([⟨1, 0⟩, ⟨0, 1⟩, ⟨2, 5⟩] : List (complex_t ℝ)).set
            (([⟨1, 0⟩, ⟨0, 1⟩, ⟨2, 5⟩] : List (complex_t ℝ)).length - 1) v)
          (([⟨1, 0⟩, ⟨0, 1⟩, ⟨2, 5⟩] : List (complex_t ℝ)).length : ℤ) = some out2 ∧
        nth out2 (([⟨1, 0⟩, ⟨0, 1⟩, ⟨2, 5⟩] : List (complex_t ℝ)).length - 1) = v ∧
        ∀ j, j < ([⟨1, 0⟩, ⟨0, 1⟩, ⟨2, 5⟩] : List (complex_t ℝ)).length - 1 →
          nth out2 j = nth out j :=
  ⟨by decide, by decide,
    fft_odd_length Real.cos Real.sin Real.pi [⟨1, 0⟩, ⟨0, 1⟩, ⟨2, 5⟩] (by decide) (by decide)⟩

/-! ## Depth of the recursion -/

theorem fftDepth_le_one (n : ℤ) (hn : n ≤ 1) : fftDepth n = 0 := by
  rw [fftDepth, dif_pos hn]

theorem fftDepth_step (n : ℤ) (hn : 2 ≤ n) : fftDepth n = 1 + fftDepth (n.tdiv 2) := by
  rw [fftDepth, dif_neg (by omega), max_self]

theorem fftDepth_pow_two (m : ℕ) : fftDepth ((2 ^ m : ℕ) : ℤ) = m := by
  induction m with
  | zero => exact fftDepth_le_one _ (by norm_num)
  | succ m ih =>
    have hpos : 1 ≤ 2 ^ m := Nat.one_le_two_pow
    have hp : 2 ^ (m + 1) = 2 * 2 ^ m := by ring
    rw [fftDepth_step _ (by omega), pow_two_tdiv, ih]
    omega

theorem fftCallSizes_pow_two (m : ℕ) :
    ∀ c ∈ fftCallSizes ((2 ^ m : ℕ) : ℤ), ∃ j, j < m ∧ c = ((2 ^ j : ℕ) : ℤ) := by
  induction m with
  | zero =>
    intro c hc
    rw [fftCallSizes, dif_pos (by norm_num)] at hc
    simp at hc
  | succ m ih =>
    intro c hc
    have hpos : 1 ≤ 2 ^ m := Nat.one_le_two_pow
    have hp : 2 ^ (m + 1) = 2 * 2 ^ m := by ring
    rw [fftCallSizes, dif_neg (by omega), pow_two_tdiv] at hc
    have key : c = ((2 ^ m : ℕ) : ℤ) ∨ c ∈ fftCallSizes ((2 ^ m : ℕ) : ℤ) := by
      rcases List.mem_append.mp hc with h | h
      · exact List.mem_cons.mp h
      · exact List.mem_cons.mp h
    rcases key with h | h
    · exact ⟨m, Nat.lt_succ_self m, h⟩
    · obtain ⟨j, hj, hc2⟩ := ih c h
      exact ⟨j, Nat.lt_succ_of_lt hj, hc2⟩

/-- C17: termination and depth.  `fft(a, n)` returns for every integer `n` (on a buffer of at
least `n` samples); for `n ≤ 0` it returns at once, with no recursive call; for `n ≥ 2` each
recursive call is on `n/2`, with `0 < n/2 < n`; for `n = 2^m` the nesting depth of the recursive
calls is exactly `m`, and every recursive call is on a power-of-two size. -/
theorem fft_terminates_depth [Field R] (cos sin : R → R) (PI : R) (n : ℤ)
    (a : List (complex_t R)) (m : ℕ) (ha : n ≤ (a.length : ℤ)) :
    (∃ out, fft cos sin PI a n = some out) ∧
    (n ≤ 0 → fft cos sin PI a n = some a ∧ fftDepth n = 0 ∧ fftCallSizes n = []) ∧
    (2 ≤ n → 0 < n.tdiv 2 ∧ n.tdiv 2 < n ∧ fftDepth n = 1 + fftDepth (n.tdiv 2)) ∧
    fftDepth ((2 ^ m : ℕ) : ℤ) = m ∧
    ∀ c ∈ fftCallSizes ((2 ^ m : ℕ) : ℤ), ∃ j, j < m ∧ c = ((2 ^ j : ℕ) : ℤ) := by
  refine ⟨?_, ?_, ?_, fftDepth_pow_two m, fftCallSizes_pow_two m⟩
  · obtain ⟨out, h, -⟩ := fft_total cos sin PI n.toNat n a (le_refl _) (by omega)
    exact ⟨out, h⟩
  · intro h0
    refine ⟨fft_le_one cos sin PI a n (by omega), fftDepth_le_one n (by omega), ?_⟩
    rw [fftCallSizes, dif_pos (by omega)]
  · intro h2
    have h3 : n.tdiv 2 = n / 2 := Int.tdiv_eq_ediv (by omega) (by norm_num)
    refine ⟨by rw [h3]; omega, by rw [h3]; omega, fftDepth_step n h2⟩

/-- Witness of `fft_terminates_depth` at `n = 4 = 2^2` on a buffer of 4 samples. -/
theorem fft_terminates_depth_witness :
    (4 : ℤ) ≤ ((([⟨1, 0⟩, ⟨0, 1⟩, ⟨2, 0⟩, ⟨0, 3⟩] : List (complex_t ℝ)).length : ℕ) : ℤ) ∧
    ((∃ out, fft Real.cos Real.sin Real.pi [⟨1, 0⟩, ⟨0, 1⟩, ⟨2, 0⟩, ⟨0, 3⟩] 4 = some out) ∧
    ((4 : ℤ) ≤ 0 → fft Real.cos Real.sin Real.pi [⟨1, 0⟩, ⟨0, 1⟩, ⟨2, 0⟩, ⟨0, 3⟩] 4 =
        some [⟨1, 0⟩, ⟨0, 1⟩, ⟨2, 0⟩, ⟨0, 3⟩] ∧ fftDepth 4 = 0 ∧ fftCallSizes 4 = []) ∧
    ((2 : ℤ) ≤ 4 → 0 < (4 : ℤ).tdiv 2 ∧ (4 : ℤ).tdiv 2 < 4 ∧
        fftDepth 4 = 1 + fftDepth ((4 : ℤ).tdiv 2)) ∧
    fftDepth ((2 ^ 2 : ℕ) : ℤ) = 2 ∧
    ∀ c ∈ fftCallSizes ((2 ^ 2 : ℕ) : ℤ), ∃ j, j < 2 ∧ c = ((2 ^ j : ℕ) : ℤ)) :=
  ⟨by decide,
    fft_terminates_depth Real.cos Real.sin Real.pi 4 [⟨1, 0⟩, ⟨0, 1⟩, ⟨2, 0⟩, ⟨0, 3⟩] 2
      (by decide)⟩

/-! ## The input of the benchmark and its transform -/

theorem init_input_length [Field R] (cos sin : R → R) (PI : R) (N : ℤ) :
    (init_input cos sin PI N).length = N.toNat := by
  simp [init_input]

theorem nth_init_input [Field R] (cos sin : R → R) (PI : R) (N : ℤ) (i : ℕ)
    (hi : i < N.toNat) :
    nth (init_input cos sin PI N) i =
      ⟨cos (2 * PI * (i : R) / (N : R)), sin (2 * PI * (i : R) / (N : R))⟩ := by
  unfold init_input
  conv_lhs => unfold nth
  rw [List.getD_eq_getElem?_getD, List.getElem?_map, List.getElem?_range hi]
  rfl

/-- C11: input generator.  For every size `N ≥ 1` the generated sequence has length `N`; sample
`i` is `(cos(2πi/N), sin(2πi/N))` and has magnitude exactly 1, for every `i < N`; sample 0 is
`(1, 0)`.  Exact real arithmetic. -/
theorem init_input_unit_circle (N : ℕ) (hN : 1 ≤ N) :
    (init_input Real.cos Real.sin Real.pi (N : ℤ)).length = N ∧
    (∀ i, i < N →
      nth (init_input Real.cos Real.sin Real.pi (N : ℤ)) i =
        ⟨Real.cos (2 * Real.pi * (i : ℝ) / (N : ℝ)),
         Real.sin (2 * Real.pi * (i : ℝ) / (N : ℝ))⟩ ∧
      (nth (init_input Real.cos Real.sin Real.pi (N : ℤ)) i).re ^ 2 +
        (nth (init_input Real.cos Real.sin Real.pi (N : ℤ)) i).im ^ 2 = 1 ∧
      Complex.abs (toC (nth (init_input Real.cos Real.sin Real.pi (N : ℤ)) i)) = 1) ∧
    nth (init_input Real.cos Real.sin Real.pi (N : ℤ)) 0 = ⟨1, 0⟩ := by
  have hv : ∀ i, i < N →
      nth (init_input Real.cos Real.sin Real.pi (N : ℤ)) i =
        ⟨Real.cos (2 * Real.pi * (i : ℝ) / (N : ℝ)),
         Real.sin (2 * Real.pi * (i : ℝ) / (N : ℝ))⟩ := by
    intro i hi
    rw [nth_init_input _ _ _ _ i (by rw [Int.toNat_natCast]; exact hi), Int.cast_natCast]
  refine ⟨by rw [init_input_length, Int.toNat_natCast], ?_, ?_⟩
  · intro i hi
    refine ⟨hv i hi, ?_, ?_⟩
    · rw [hv i hi]
      exact Real.cos_sq_add_sin_sq _
    · rw [hv i hi, toC_cos_sin]
      exact Complex.abs_exp_ofReal_mul_I _
  · rw [hv 0 (by omega)]
    simp

/-- Witness of `init_input_unit_circle` at the compiled size `N = 1024`. -/
theorem init_input_unit_circle_witness :
    (1 : ℕ) ≤ 1024 ∧
    ((init_input Real.cos Real.sin Real.pi ((1024 : ℕ) : ℤ)).length = 1024 ∧
    (∀ i, i < 1024 →
      nth (init_input Real.cos Real.sin Real.pi ((1024 : ℕ) : ℤ)) i =
        ⟨Real.cos (2 * Real.pi * (i : ℝ) / ((1024 : ℕ) : ℝ)),
         Real.sin (2 * Real.pi * (i : ℝ) / ((1024 : ℕ) : ℝ))⟩ ∧
      (nth (init_input Real.cos Real.sin Real.pi ((1024 : ℕ) : ℤ)) i).re ^ 2 +
        (nth (init_input Real.cos Real.sin Real.pi ((1024 : ℕ) : ℤ)) i).im ^ 2 = 1 ∧
      Complex.abs (toC (nth (init_input Real.cos Real.sin Real.pi ((1024 : ℕ) : ℤ)) i)) = 1) ∧
    nth (init_input Real.cos Real.sin Real.pi ((1024 : ℕ) : ℤ)) 0 = ⟨1, 0⟩) :=
  ⟨by decide, init_input_unit_circle 1024 (by decide)⟩

theorem toC_init_input (m j : ℕ) (hj : j < 2 ^ m) :
    toC (nth (init_input Real.cos Real.sin Real.pi ((2 ^ m : ℕ) : ℤ)) j) =
      (Complex.exp (((1 * (-2 * Real.pi / 2 ^ m) : ℝ) : ℂ) * Complex.I))⁻¹ ^ (1 * j) := by
  rw [nth_init_input _ _ _ _ j (by rw [Int.toNat_natCast]; exact hj), toC_cos_sin,
    ← Complex.exp_neg, ← Complex.exp_nat_mul]
  congr 1
  push_cast
  ring

/-- C14: end-to-end result of the benchmark.  For every power of two `N = 2^m ≥ 2`, `fft` of the
generated input `s[i] = (cos(2πi/N), sin(2πi/N))` is `(N, 0)` at index 1 and `(0, 0)` at every
other index; so the sample `FFT[0]` reported by `main` is `(0, 0)`.  Exact real arithmetic. -/
theorem fft_main_result (m : ℕ) (hm : 1 ≤ m) :
    ∃ out, fft Real.cos Real.sin Real.pi
        (init_input Real.cos Real.sin Real.pi ((2 ^ m : ℕ) : ℤ)) ((2 ^ m : ℕ) : ℤ) = some out ∧
      out.length = 2 ^ m ∧
      nth out 1 = ⟨((2 ^ m : ℕ) : ℝ), 0⟩ ∧
      (∀ k, k < 2 ^ m → k ≠ 1 → nth out k = ⟨0, 0⟩) ∧
      fft_main Real.cos Real.sin Real.pi ((2 ^ m : ℕ) : ℤ) = some ⟨0, 0⟩ := by
  have hl : (init_input Real.cos Real.sin Real.pi ((2 ^ m : ℕ) : ℤ)).length = 2 ^ m := by
    rw [init_input_length, Int.toNat_natCast]
  obtain ⟨out, h1, h2, h3⟩ :=
    fft_dft_sigma Real.cos Real.sin 1 (Or.inl rfl) (by simp) (by simp) m _ hl
  have h2m : 2 ≤ 2 ^ m := by
    calc 2 = 2 ^ 1 := by norm_num
      _ ≤ 2 ^ m := Nat.pow_le_pow_right (by norm_num) hm
  have key : ∀ k, k < 2 ^ m →
      toC (nth out k) = if 1 = k then ((2 ^ m : ℕ) : ℂ) else 0 := by
    intro k hk
    rw [h3 k hk, ← orth _ (2 ^ m) (root_primitive m).inv 1 k (by omega) hk]
    apply Finset.sum_congr rfl
    intro j hj
    rw [toC_init_input m j (Finset.mem_range.mp hj), inv_inv]
  have hz : ∀ k, k < 2 ^ m → k ≠ 1 → nth out k = ⟨0, 0⟩ := by
    intro k hk hk1
    apply toC_injective
    rw [key k hk, if_neg (fun h => hk1 h.symm)]
    apply Complex.ext <;> simp [toC]
  refine ⟨out, h1, h2, ?_, hz, ?_⟩
  · apply toC_injective
    rw [key 1 (by omega), if_pos rfl]
    apply Complex.ext
    · rw [Complex.natCast_re]; rfl
    · rw [Complex.natCast_im]; rfl
  · unfold fft_main
    rw [h1]
    simp only [Option.bind_eq_bind, Option.some_bind]
    rw [nth_eq_of_getElem? out 0 (by omega), hz 0 (by omega) (by omega)]

/-- Witness of `fft_main_result` at the compiled size `N = 1024 = 2^10`. -/
theorem fft_main_result_witness :
    1 ≤ 10 ∧
    ∃ out, fft Real.cos Real.sin Real.pi
        (init_input Real.cos Real.sin Real.pi ((2 ^ 10 : ℕ) : ℤ)) ((2 ^ 10 : ℕ) : ℤ) =
          some out ∧
      out.length = 2 ^ 10 ∧
      nth out 1 = ⟨((2 ^ 10 : ℕ) : ℝ), 0⟩ ∧
      (∀ k, k < 2 ^ 10 → k ≠ 1 → nth out k = ⟨0, 0⟩) ∧
      fft_main Real.cos Real.sin Real.pi ((2 ^ 10 : ℕ) : ℤ) = some ⟨0, 0⟩ :=
  ⟨by decide, fft_main_result 10 (by decide)⟩

/-! ## The branch-count loop -/

theorem wrap32_id (x : ℤ) (h1 : -2 ^ 31 ≤ x) (h2 : x < 2 ^ 31) : wrap32 x = x := by
  unfold wrap32
  omega

theorem hits_succ (rand : ℕ → ℤ) (i : ℕ) :
    hits rand (i + 1) = hits rand i + (if Int.tmod (rand i) 100 < 50 then 1 else 0) := by
  unfold hits
  rw [List.range_succ, List.filter_append, List.length_append]
  by_cases h : Int.tmod (rand i) 100 < 50
  · simp [h]
  · simp [h]

theorem branchy_main_succ (rand : ℕ → ℤ) (i : ℕ) :
    branchy_main rand (i + 1) = branchy_step (branchy_main rand i) (rand i) := by
  unfold branchy_main
  rw [List.range_succ, List.foldl_append]
  rfl

theorem branchy_invariant (rand : ℕ → ℤ) :
    ∀ i : ℕ, i ≤ 100000000 →
      branchy_main rand i = 2 * (hits rand i : ℤ) - (i : ℤ) ∧ hits rand i ≤ i := by
  intro i
  induction i with
  | zero =>
    intro _
    constructor
    · rfl
    · exact Nat.le_refl _
  | succ i ih =>
    intro hi
    obtain ⟨h1, h2⟩ := ih (by omega)
    rw [branchy_main_succ, hits_succ, h1]
    unfold branchy_step
    by_cases h : Int.tmod (rand i) 100 < 50
    · rw [if_pos h, if_pos h, wrap32_id _ (by omega) (by omega)]
      constructor
      · push_cast; ring
      · omega
    · rw [if_neg h, if_neg h, wrap32_id _ (by omega) (by omega)]
      constructor
      · push_cast; ring
      · omega

/-- C18: branch-count loop.  For every stream of `rand()` results and every `i ≤ N = 100000000`,
after `i` iterations `count` is the number of draws with `rand() % 100 < 50` minus the number of
the other draws, that is `2 * hits - i`; so `|count| ≤ i`, `count` has the parity of `i`, and
`count` stays in the range of a 32-bit signed `int`.  The final count is even and lies in
`[-N, N]`. -/
theorem branchy_count (rand : ℕ → ℤ) (i : ℕ) (hi : i ≤ 100000000) :
    branchy_main rand i = (hits rand i : ℤ) - ((i : ℤ) - (hits rand i : ℤ)) ∧
    branchy_main rand i = 2 * (hits rand i : ℤ) - (i : ℤ) ∧
    |branchy_main rand i| ≤ (i : ℤ) ∧
    (branchy_main rand i - (i : ℤ)) % 2 = 0 ∧
    -2 ^ 31 ≤ branchy_main rand i ∧ branchy_main rand i < 2 ^ 31 ∧
    branchy_main rand 100000000 % 2 = 0 ∧
    -100000000 ≤ branchy_main rand 100000000 ∧ branchy_main rand 100000000 ≤ 100000000 := by
  obtain ⟨h1, h2⟩ := branchy_invariant rand i hi
  obtain ⟨g1, g2⟩ := branchy_invariant rand 100000000 (le_refl _)
  refine ⟨by omega, h1, ?_, by omega, by omega, by omega, by omega, by omega, by omega⟩
  rw [abs_le]
  constructor <;> omega

/-- Witness of `branchy_count` after 3 iterations on the stream `0, 37, 74, ...`. -/
theorem branchy_count_witness :
    (3 : ℕ) ≤ 100000000 ∧
    (branchy_main (fun t => (t : ℤ) * 37) 3 =
      (hits (fun t => (t : ℤ) * 37) 3 : ℤ) -
        (((3 : ℕ) : ℤ) - (hits (fun t => (t : ℤ) * 37) 3 : ℤ)) ∧
    branchy_main (fun t => (t : ℤ) * 37) 3 =
      2 * (hits (fun t => (t : ℤ) * 37) 3 : ℤ) - ((3 : ℕ) : ℤ) ∧
    |branchy_main (fun t => (t : ℤ) * 37) 3| ≤ ((3 : ℕ) : ℤ) ∧
    (branchy_main (fun t => (t : ℤ) * 37) 3 - ((3 : ℕ) : ℤ)) % 2 = 0 ∧
    -2 ^ 31 ≤ branchy_main (fun t => (t : ℤ) * 37) 3 ∧
    branchy_main (fun t => (t : ℤ) * 37) 3 < 2 ^ 31 ∧
    branchy_main (fun t => (t : ℤ) * 37) 100000000 % 2 = 0 ∧
    -100000000 ≤ branchy_main (fun t => (t : ℤ) * 37) 100000000 ∧
    branchy_main (fun t => (t : ℤ) * 37) 100000000 ≤ 100000000) :=
  ⟨by decide, branchy_count (fun t => (t : ℤ) * 37) 3 (by decide)⟩

/-! ## The matrix multiply -/

theorem mm_init_row (i : ℕ) (s : mm_globals) (n : ℕ) :
    (List.range n).foldl (fun s j => mm_init_cell s i j) s =
      ⟨fun i2 j2 => if i2 = i ∧ j2 < n then Int.tmod ((i : ℤ) + (j2 : ℤ)) 100 else s.A i2 j2,
       fun i2 j2 => if i2 = i ∧ j2 < n then Int.tmod ((i : ℤ) - (j2 : ℤ)) 100 else s.B i2 j2,
       fun i2 j2 => if i2 = i ∧ j2 < n then 0 else s.C i2 j2⟩ := by
  induction n with
  | zero => simp
  | succ n ih =>
    rw [List.range_succ, List.foldl_append, ih]
    simp only [List.foldl_cons, List.foldl_nil, mm_init_cell, setCell, mm_globals.mk.injEq]
    refine ⟨?_, ?_, ?_⟩ <;>
    · funext i2 j2
      simp only [setCell]
      by_cases c1 : i2 = i ∧ j2 = n
      · simp [c1.1, c1.2]
      · rw [if_neg c1]
        by_cases c3 : i2 = i ∧ j2 < n
        · have c2 : i2 = i ∧ j2 < n + 1 := ⟨c3.1, by omega⟩
          rw [if_pos c3, if_pos c2]
        · have c2 : ¬ (i2 = i ∧ j2 < n + 1) := by
            intro h
            rcases Nat.lt_succ_iff_lt_or_eq.mp h.2 with h5 | h5
            · exact c3 ⟨h.1, h5⟩
            · exact c1 ⟨h.1, h5⟩
          rw [if_neg c3, if_neg c2]

theorem mm_init_eq (N : ℕ) (s : mm_globals) (n : ℕ) :
    (List.range n).foldl
        (fun s i => (List.range N).foldl (fun s j => mm_init_cell s i j) s) s =
      ⟨fun i2 j2 => if i2 < n ∧ j2 < N then Int.tmod ((i2 : ℤ) + (j2 : ℤ)) 100 else s.A i2 j2,
       fun i2 j2 => if i2 < n ∧ j2 < N then Int.tmod ((i2 : ℤ) - (j2 : ℤ)) 100 else s.B i2 j2,
       fun i2 j2 => if i2 < n ∧ j2 < N then 0 else s.C i2 j2⟩ := by
  induction n with
  | zero => simp
  | succ n ih =>
    rw [List.range_succ, List.foldl_append, ih]
    simp only [List.foldl_cons, List.foldl_nil, mm_init_row, mm_globals.mk.injEq]
    refine ⟨?_, ?_, ?_⟩ <;>
    · funext i2 j2
      by_cases c1 : i2 = n ∧ j2 < N
      · simp [c1.1, c1.2]
      · rw [if_neg c1]
        by_cases c3 : i2 < n ∧ j2 < N
        · have c2 : i2 < n + 1 ∧ j2 < N := ⟨by omega, c3.2⟩
          rw [if_pos c3, if_pos c2]
        · have c2 : ¬ (i2 < n + 1 ∧ j2 < N) := by
            intro h
            rcases Nat.lt_succ_iff_lt_or_eq.mp h.1 with h5 | h5
            · exact c3 ⟨h5, h.2⟩
            · exact c1 ⟨h5, h.2⟩
          rw [if_neg c3, if_neg c2]

theorem mm_multiply_row (N i : ℕ) (s : mm_globals) (n : ℕ) :
    (List.range n).foldl
        (fun s j => { s with C := setCell s.C i j (mm_dot s.A s.B i j N) }) s =
      ⟨s.A, s.B,
       fun i2 j2 => if i2 = i ∧ j2 < n then mm_dot s.A s.B i j2 N else s.C i2 j2⟩ := by
  induction n with
  | zero => simp
  | succ n ih =>
    rw [List.range_succ, List.foldl_append, ih]
    simp only [List.foldl_cons, List.foldl_nil, setCell, mm_globals.mk.injEq, true_and]
    funext i2 j2
    simp only [setCell]
    by_cases c1 : i2 = i ∧ j2 = n
    · simp [c1.1, c1.2]
    · rw [if_neg c1]
      by_cases c3 : i2 = i ∧ j2 < n
      · have c2 : i2 = i ∧ j2 < n + 1 := ⟨c3.1, by omega⟩
        rw [if_pos c3, if_pos c2]
      · have c2 : ¬ (i2 = i ∧ j2 < n + 1) := by
          intro h
          rcases Nat.lt_succ_iff_lt_or_eq.mp h.2 with h5 | h5
          · exact c3 ⟨h.1, h5⟩
          · exact c1 ⟨h.1, h5⟩
        rw [if_neg c3, if_neg c2]

theorem mm_multiply_eq (N : ℕ) (s : mm_globals) (n : ℕ) :
    (List.range n).foldl
        (fun s i => (List.range N).foldl
          (fun s j => { s with C := setCell s.C i j (mm_dot s.A s.B i j N) }) s) s =
      ⟨s.A, s.B,
       fun i2 j2 => if i2 < n ∧ j2 < N then mm_dot s.A s.B i2 j2 N else s.C i2 j2⟩ := by
  induction n with
  | zero => simp
  | succ n ih =>
    rw [List.range_succ, List.foldl_append, ih]
    simp only [List.foldl_cons, List.foldl_nil, mm_multiply_row, mm_globals.mk.injEq, true_and]
    funext i2 j2
    by_cases c1 : i2 = n ∧ j2 < N
    · simp [c1.1, c1.2]
    · rw [if_neg c1]
      by_cases c3 : i2 < n ∧ j2 < N
      · have c2 : i2 < n + 1 ∧ j2 < N := ⟨by omega, c3.2⟩
        rw [if_pos c3, if_pos c2]
      · have c2 : ¬ (i2 < n + 1 ∧ j2 < N) := by
          intro h
          rcases Nat.lt_succ_iff_lt_or_eq.mp h.1 with h5 | h5
          · exact c3 ⟨h5, h.2⟩
          · exact c1 ⟨h5, h.2⟩
        rw [if_neg c3, if_neg c2]

theorem tmod_hundred_abs (x : ℤ) : -99 ≤ Int.tmod x 100 ∧ Int.tmod x 100 ≤ 99 := by
  rcases le_or_lt 0 x with h | h
  · rw [Int.tmod_eq_emod h (by norm_num)]
    omega
  · have e : Int.tmod x 100 = -(Int.tmod (-x) 100) := by
      rw [Int.tmod_def, Int.tmod_def, Int.neg_tdiv]
      ring
    rw [e, Int.tmod_eq_emod (by omega) (by norm_num)]
    omega

theorem tmod_hundred_nat (i k : ℕ) :
    Int.tmod ((i : ℤ) + (k : ℤ)) 100 = (((i + k) % 100 : ℕ) : ℤ) := by
  rw [Int.tmod_eq_emod (by omega) (by norm_num)]
  omega

theorem mm_dot_succ (A B : ℕ → ℕ → ℤ) (i j n : ℕ) :
    mm_dot A B i j (n + 1) = mm_dot A B i j n + A i n * B n j := by
  unfold mm_dot
  rw [List.range_succ, List.foldl_append]
  rfl

theorem mm_dot_eq_sum (A B : ℕ → ℕ → ℤ) (i j n : ℕ) :
    mm_dot A B i j n = ∑ k ∈ Finset.range n, A i k * B k j := by
  induction n with
  | zero => rfl
  | succ n ih => rw [mm_dot_succ, Finset.sum_range_succ, ih]

theorem mm_dot_bound (A B : ℕ → ℕ → ℤ) (i j N : ℕ)
    (hA : ∀ k, k < N → -99 ≤ A i k ∧ A i k ≤ 99)
    (hB : ∀ k, k < N → -99 ≤ B k j ∧ B k j ≤ 99) :
    ∀ n, n ≤ N → |mm_dot A B i j n| ≤ (n : ℤ) * 9801 := by
  intro n
  induction n with
  | zero =>
    intro _
    simp [mm_dot]
  | succ n ih =>
    intro hn
    have h1 := ih (by omega)
    have h2 : |A i n * B n j| ≤ 9801 := by
      rw [abs_mul]
      have ha : |A i n| ≤ 99 := abs_le.mpr (hA n (by omega))
      have hb : |B n j| ≤ 99 := abs_le.mpr (hB n (by omega))
      calc |A i n| * |B n j| ≤ 99 * 99 :=
            mul_le_mul ha hb (abs_nonneg _) (by norm_num)
        _ = 9801 := by norm_num
    rw [mm_dot_succ]
    calc |mm_dot A B i j n + A i n * B n j|
        ≤ |mm_dot A B i j n| + |A i n * B n j| := abs_add _ _
      _ ≤ (n : ℤ) * 9801 + 9801 := add_le_add h1 h2
      _ = ((n + 1 : ℕ) : ℤ) * 9801 := by push_cast; ring

theorem mm_run_eq (N : ℕ) :
    mm_run N =
      ⟨fun i j => if i < N ∧ j < N then Int.tmod ((i : ℤ) + (j : ℤ)) 100 else 0,
       fun i j => if i < N ∧ j < N then Int.tmod ((i : ℤ) - (j : ℤ)) 100 else 0,
       fun i j => if i < N ∧ j < N then
          mm_dot (fun i j => if i < N ∧ j < N then Int.tmod ((i : ℤ) + (j : ℤ)) 100 else 0)
            (fun i j => if i < N ∧ j < N then Int.tmod ((i : ℤ) - (j : ℤ)) 100 else 0) i j N
        else if i < N ∧ j < N then 0 else 0⟩ := by
  unfold mm_run mm_multiply mm_init
  rw [mm_init_eq, mm_multiply_eq]

theorem mm_run_A (N i j : ℕ) (hi : i < N) (hj : j < N) :
    (mm_run N).A i j = Int.tmod ((i : ℤ) + (j : ℤ)) 100 := by
  rw [mm_run_eq]
  simp [hi, hj]

theorem mm_run_B (N i j : ℕ) (hi : i < N) (hj : j < N) :
    (mm_run N).B i j = Int.tmod ((i : ℤ) - (j : ℤ)) 100 := by
  rw [mm_run_eq]
  simp [hi, hj]

theorem mm_run_C (N i j : ℕ) (hi : i < N) (hj : j < N) :
    (mm_run N).C i j = mm_dot (mm_run N).A (mm_run N).B i j N := by
  rw [mm_run_eq]
  simp [hi, hj]

theorem mm_run_C_sum (N i j : ℕ) (hi : i < N) (hj : j < N) :
    (mm_run N).C i j =
      ∑ k ∈ Finset.range N, (((i + k) % 100 : ℕ) : ℤ) * Int.tmod ((k : ℤ) - (j : ℤ)) 100 := by
  rw [mm_run_C N i j hi hj, mm_dot_eq_sum]
  apply Finset.sum_congr rfl
  intro k hk
  have hk2 : k < N := Finset.mem_range.mp hk
  rw [mm_run_A N i k hi hk2, mm_run_B N k j hk2 hj, tmod_hundred_nat]

set_option maxRecDepth 100000 in
theorem mm_sum_zero_zero :
    mm_dot (fun i k => Int.tmod ((i : ℤ) + (k : ℤ)) 100)
      (fun k j => Int.tmod ((k : ℤ) - (j : ℤ)) 100) 0 0 512 = 1642256 := by
  decide

/-- C12: the matrix multiply computes `C = A * B`.  For all `i, j < 512`,
`C[i][j] = Σ_{k<512} A[i][k] * B[k][j]` with `A[i][k] = (i + k) mod 100` and `B[k][j]` the C
remainder of `k - j` by 100; every partial sum of the inner loop is an integer of magnitude below
`2^53`, so it is exact in a `double`; and the printed element `C[0][0]` is `1642256`. -/
theorem mm_computes_product :
    (∀ i j, i < 512 → j < 512 →
      (mm_run 512).C i j =
        ∑ k ∈ Finset.range 512,
          (((i + k) % 100 : ℕ) : ℤ) * Int.tmod ((k : ℤ) - (j : ℤ)) 100) ∧
    (∀ i k, i < 512 → k < 512 →
      (mm_run 512).A i k = (((i + k) % 100 : ℕ) : ℤ) ∧
      (mm_run 512).B i k = Int.tmod ((i : ℤ) - (k : ℤ)) 100) ∧
    (∀ i j n, i < 512 → j < 512 → n ≤ 512 →
      |mm_dot (mm_run 512).A (mm_run 512).B i j n| < 2 ^ 53) ∧
    mm_main 512 = 1642256 := by
  refine ⟨fun i j hi hj => mm_run_C_sum 512 i j hi hj, ?_, ?_, ?_⟩
  · intro i k hi hk
    exact ⟨by rw [mm_run_A 512 i k hi hk, tmod_hundred_nat], mm_run_B 512 i k hi hk⟩
  · intro i j n hi hj hn
    have hb := mm_dot_bound (mm_run 512).A (mm_run 512).B i j 512
      (fun k hk => by rw [mm_run_A 512 i k hi hk]; exact tmod_hundred_abs _)
      (fun k hk => by rw [mm_run_B 512 k j hk hj]; exact tmod_hundred_abs _) n hn
    have hn2 : (n : ℤ) * 9801 ≤ 512 * 9801 := by
      have : (n : ℤ) ≤ 512 := by exact_mod_cast hn
      omega
    calc |mm_dot (mm_run 512).A (mm_run 512).B i j n| ≤ (n : ℤ) * 9801 := hb
      _ ≤ 512 * 9801 := hn2
      _ < 2 ^ 53 := by norm_num
  · unfold mm_main
    rw [mm_run_C 512 0 0 (by norm_num) (by norm_num), mm_dot_eq_sum, ← mm_sum_zero_zero,
      mm_dot_eq_sum]
    apply Finset.sum_congr rfl
    intro k hk
    have hk2 : k < 512 := Finset.mem_range.mp hk
    rw [mm_run_A 512 0 k (by norm_num) hk2, mm_run_B 512 k 0 hk2 (by norm_num)]

end HPCLab2
